import Mathlib

/-!
Verification of the audio core of the `rsaber` repository.

The development shallowly embeds three pieces of the source:

* `src/lib/src/circbuf.rs` — the bounded single-producer/single-consumer
  ring buffer (`circbuf`, `Sender::send`, `Receiver::recv`,
  `Receiver::wait_full`, the two `Drop` impls);
* `src/lib/src/audio/engine.rs` — the mixer callback built in
  `AudioEngine::build_stream` and the timestamp accessor
  `AudioSubr::get_timestamp`;
* `src/lib/src/audio/file.rs` — the file-backed source state machine
  (`AudioFileHandle::play`, `AudioFileSource::get_samples`, the handle
  `Drop` impl).

Machine floats (`f32`/`f64`) are modelled as rationals; buffers are lists;
the shared mutable state guarded by the mutex is passed explicitly.
-/

set_option maxHeartbeats 1000000

namespace RSaber

/-! ## List infrastructure

`rotl l r` is the ring buffer `l` read starting at cursor `r` (the logical
view of the circular storage).  `copySlice dst start src` is the effect of
Rust's `dst[start..start + src.len()].copy_from_slice(src)`.
-/

/-- Logical view of a ring buffer read from cursor `r` onward, wrapping. -/
def rotl (l : List α) (r : Nat) : List α := l.drop r ++ l.take r

/-- Effect of `dst[start..start+src.len()].copy_from_slice(src)`. -/
def copySlice (dst : List α) (start : Nat) (src : List α) : List α :=
  dst.take start ++ src ++ dst.drop (start + src.length)

/-- A helper for modulus reasoning with a variable modulus. -/
theorem mod_two_cases (a n : Nat) (h : a < 2 * n) :
    a % n = if a < n then a else a - n := by
  split
  · exact Nat.mod_eq_of_lt (by omega)
  · rw [Nat.mod_eq_sub_mod (by omega), Nat.mod_eq_of_lt (by omega)]

theorem mod_cases_or (a n : Nat) (h : a < 2 * n) :
    a % n = a ∨ a % n + n = a := by
  rw [mod_two_cases a n h]
  split <;> omega

theorem length_rotl (l : List α) (r : Nat) : (rotl l r).length = l.length := by
  simp [rotl]
  omega

theorem getElem?_rotl (l : List α) (r j : Nat) (hr : r ≤ l.length) (hj : j < l.length) :
    (rotl l r)[j]? = l[(r + j) % l.length]? := by
  unfold rotl
  rw [List.getElem?_append]
  simp only [List.length_drop]
  have hmod : (r + j) % l.length = if r + j < l.length then r + j else r + j - l.length :=
    mod_two_cases _ _ (by omega)
  by_cases h : j < l.length - r
  · rw [if_pos h, List.getElem?_drop, hmod, if_pos (by omega)]
  · rw [if_neg h, List.getElem?_take]
    rw [if_pos (by omega), hmod, if_neg (by omega)]
    congr 1
    omega

theorem length_copySlice (dst : List α) (start : Nat) (src : List α)
    (h : start + src.length ≤ dst.length) :
    (copySlice dst start src).length = dst.length := by
  simp [copySlice]
  omega

theorem copySlice_nil (dst : List α) (start : Nat) :
    copySlice dst start [] = dst := by
  simp [copySlice, List.take_append_drop]

theorem getElem?_copySlice (dst : List α) (start : Nat) (src : List α) (k : Nat)
    (h : start + src.length ≤ dst.length) :
    (copySlice dst start src)[k]? =
      if start ≤ k ∧ k < start + src.length then src[k - start]?
      else dst[k]? := by
  unfold copySlice
  rw [List.getElem?_append]
  simp only [List.length_append, List.length_take]
  by_cases h1 : k < start
  · rw [if_pos (by omega)]
    rw [List.getElem?_append]
    simp only [List.length_take]
    rw [if_pos (by omega), List.getElem?_take, if_pos (by omega)]
    rw [if_neg (by omega)]
  · by_cases h2 : k < start + src.length
    · rw [if_pos (by omega)]
      rw [List.getElem?_append_right (by simp; omega)]
      simp only [List.length_take]
      rw [if_pos ⟨by omega, h2⟩]
      congr 1
      omega
    · rw [if_neg (by omega), if_neg (by omega)]
      rw [List.getElem?_drop]
      congr 1
      omega

theorem copySlice_append (dst : List α) (start : Nat) (s1 s2 : List α)
    (h : start + s1.length + s2.length ≤ dst.length) :
    copySlice (copySlice dst start s1) (start + s1.length) s2 =
      copySlice dst start (s1 ++ s2) := by
  apply List.ext_getElem?
  intro k
  have hL1 : (copySlice dst start s1).length = dst.length :=
    length_copySlice _ _ _ (by omega)
  by_cases hk : k < dst.length
  · have e1 : (copySlice (copySlice dst start s1) (start + s1.length) s2)[k]? =
        if start + s1.length ≤ k ∧ k < start + s1.length + s2.length then
          s2[k - (start + s1.length)]?
        else (copySlice dst start s1)[k]? :=
      getElem?_copySlice _ _ _ _ (by rw [hL1]; omega)
    have e2 : (copySlice dst start s1)[k]? =
        if start ≤ k ∧ k < start + s1.length then s1[k - start]? else dst[k]? :=
      getElem?_copySlice _ _ _ _ (by omega)
    have e3 : (copySlice dst start (s1 ++ s2))[k]? =
        if start ≤ k ∧ k < start + (s1 ++ s2).length then (s1 ++ s2)[k - start]?
        else dst[k]? :=
      getElem?_copySlice _ _ _ _ (by rw [List.length_append]; omega)
    rw [e1, e2, e3]
    rw [List.getElem?_append]
    simp only [List.length_append]
    split_ifs <;> first | rfl | omega | (congr 1; omega)
  · have h1 : (copySlice (copySlice dst start s1) (start + s1.length) s2).length ≤ k := by
      rw [length_copySlice _ _ _ (by rw [hL1]; omega), hL1]; omega
    have h2 : (copySlice dst start (s1 ++ s2)).length ≤ k := by
      rw [length_copySlice _ _ _ (by rw [List.length_append]; omega)]; omega
    rw [List.getElem?_eq_none h1, List.getElem?_eq_none h2]

/-- Writing a chunk contiguously at physical position `(r + f) % len`
commutes with rotating the ring to logical coordinates: in the rotated view
the write lands contiguously at logical position `f`. -/
theorem rotl_copySlice (buf : List α) (r f : Nat) (chunk : List α)
    (hr : r < buf.length) (hf : f + chunk.length ≤ buf.length)
    (hs : (r + f) % buf.length + chunk.length ≤ buf.length) :
    rotl (copySlice buf ((r + f) % buf.length) chunk) r =
      copySlice (rotl buf r) f chunk := by
  set len := buf.length with hlen
  have hlen0 : 0 < len := by omega
  set s := (r + f) % len with hsdef
  have hs' : s = r + f ∨ s + len = r + f := mod_cases_or _ _ (by omega)
  have hslt : s < len := Nat.mod_lt _ hlen0
  have hclen : (copySlice buf s chunk).length = len :=
    length_copySlice _ _ _ (by omega)
  apply List.ext_getElem?
  intro j
  by_cases hj : j < len
  · have hm' : (r + j) % len = r + j ∨ (r + j) % len + len = r + j :=
      mod_cases_or _ _ (by omega)
    have hmlt : (r + j) % len < len := Nat.mod_lt _ hlen0
    rw [getElem?_rotl _ _ _ (by omega) (by rw [hclen]; omega)]
    rw [hclen]
    rw [getElem?_copySlice _ _ _ _ (by omega)]
    rw [getElem?_copySlice _ _ _ _ (by rw [length_rotl]; omega)]
    by_cases hc : f ≤ j ∧ j < f + chunk.length
    · rw [if_pos hc]
      have hin : s ≤ (r + j) % len ∧ (r + j) % len < s + chunk.length ∧
          (r + j) % len - s = j - f := by
        rcases hs' with h1 | h1 <;> rcases hm' with h2 | h2 <;> omega
      rw [if_pos ⟨hin.1, hin.2.1⟩, hin.2.2]
    · rw [if_neg hc]
      have hout : ¬(s ≤ (r + j) % len ∧ (r + j) % len < s + chunk.length) := by
        rcases hs' with h1 | h1 <;> rcases hm' with h2 | h2 <;> omega
      rw [if_neg hout]
      rw [getElem?_rotl _ _ _ (by omega) hj]
  · have h1 : (rotl (copySlice buf s chunk) r).length ≤ j := by
      rw [length_rotl, hclen]; omega
    have h2 : (copySlice (rotl buf r) f chunk).length ≤ j := by
      rw [length_copySlice _ _ _ (by rw [length_rotl]; omega), length_rotl]; omega
    rw [List.getElem?_eq_none h1, List.getElem?_eq_none h2]

theorem rotl_rotl (l : List α) (r c : Nat) (hr : r < l.length) (hc : c ≤ l.length) :
    rotl l ((r + c) % l.length) = rotl (rotl l r) c := by
  have hlen0 : 0 < l.length := by omega
  apply List.ext_getElem?
  intro j
  by_cases hj : j < l.length
  · rw [getElem?_rotl _ _ _ (Nat.le_of_lt (Nat.mod_lt _ hlen0)) hj]
    rw [getElem?_rotl _ _ _ (by rw [length_rotl]; omega) (by rw [length_rotl]; omega)]
    rw [length_rotl]
    rw [getElem?_rotl _ _ _ (by omega) (Nat.mod_lt _ hlen0)]
    congr 1
    rw [Nat.mod_add_mod, Nat.add_mod_mod, Nat.add_assoc]
  · have h1 : (rotl l ((r + c) % l.length)).length ≤ j := by rw [length_rotl]; omega
    have h2 : (rotl (rotl l r) c).length ≤ j := by rw [length_rotl, length_rotl]; omega
    rw [List.getElem?_eq_none h1, List.getElem?_eq_none h2]

/-! ## Bounded sample channel (`src/lib/src/circbuf.rs`)

`CB` models `struct Inner<T>`: the fixed storage `buf`, the write cursor
`send_i`, the read cursor `recv_i`, the `filled` count and the two liveness
flags.  `CB.cap` is `inner.buf.len()`; `CB.Wf` is the structural invariant
maintained by the code; `CB.contents` is the logical FIFO content (the
`filled` elements starting at `recv_i`, wrapping).
-/

/-- The shared state `Inner<T>` of `circbuf.rs`. -/
structure CB (α : Type) where
  buf : List α
  send_i : Nat
  recv_i : Nat
  filled : Nat
  send_alive : Bool
  recv_alive : Bool
  deriving Repr, DecidableEq

/-- `inner.buf.len()`. -/
def CB.cap (cb : CB α) : Nat := cb.buf.length

/-- Structural invariant of the ring buffer state. -/
def CB.Wf (cb : CB α) : Prop :=
  0 < cb.cap ∧ cb.send_i < cb.cap ∧ cb.recv_i < cb.cap ∧ cb.filled ≤ cb.cap ∧
    cb.send_i = (cb.recv_i + cb.filled) % cb.cap

instance (cb : CB α) : Decidable cb.Wf :=
  inferInstanceAs (Decidable (_ ∧ _ ∧ _ ∧ _ ∧ _))

/-- The buffered elements, oldest first. -/
def CB.contents (cb : CB α) : List α := (rotl cb.buf cb.recv_i).take cb.filled

theorem CB.length_contents (cb : CB α) (h : cb.filled ≤ cb.cap) :
    cb.contents.length = cb.filled := by
  simp [CB.contents, length_rotl]
  exact h

/-- The state built by `circbuf(len)`: zero cursors, zero fill, both ends
alive, storage holding `len` default elements. -/
def circbufInit (α : Type) [Inhabited α] (len : Nat) : CB α :=
  { buf := List.replicate len default
    send_i := 0
    recv_i := 0
    filled := 0
    send_alive := true
    recv_alive := true }

theorem circbufInit_Wf (α : Type) [Inhabited α] (len : Nat) (h : 0 < len) :
    (circbufInit α len).Wf := by
  refine ⟨?_, ?_, ?_, ?_, ?_⟩ <;> simp [circbufInit, CB.cap, h]

theorem circbufInit_contents (α : Type) [Inhabited α] (len : Nat) :
    (circbufInit α len).contents = [] := by
  simp [circbufInit, CB.contents]

/-! ### The chunked copy loops

`sendCopy` is the inner `while todo > 0` loop of `Sender::send`: it copies
`todo` elements of `src` (starting at index `i`) into physical positions
starting at the write cursor `s`, in at most two contiguous chunks
(`copy = min(inner_buf_len - inner_send_i, todo)`), wrapping the cursor to
0 when it reaches the end.  The code's `assert!(copy > 0)` is modelled by
returning `none` when the assertion would fail (unreachable from a
well-formed state).  `recvCopy` is the mirror loop of `Receiver::recv`,
accumulating the copied elements in `out` (the data written to the caller's
buffer, in order).
-/

/-- Inner copy loop of `Sender::send` (`copy = min(inner_buf_len - inner_send_i, todo)`,
copy a contiguous chunk, wrap the cursor, repeat).  Returns `(buf', send_i', i')`. -/
def sendCopy (buf : List α) (s : Nat) (src : List α) (i todo : Nat) :
    Option (List α × Nat × Nat) :=
  if todo = 0 then some (buf, s, i)
  else if min (buf.length - s) todo = 0 then none -- assert!(copy > 0)
  else
    sendCopy (copySlice buf s ((src.drop i).take (min (buf.length - s) todo)))
      (if s + min (buf.length - s) todo = buf.length then 0
       else s + min (buf.length - s) todo)
      src (i + min (buf.length - s) todo) (todo - min (buf.length - s) todo)
termination_by todo
decreasing_by omega

/-- Inner copy loop of `Receiver::recv`.  Returns `(recv_i', out')` where
`out'` extends `out` with the elements copied to the caller's buffer. -/
def recvCopy (buf : List α) (r : Nat) (todo : Nat) (out : List α) :
    Option (Nat × List α) :=
  if todo = 0 then some (r, out)
  else if min (buf.length - r) todo = 0 then none -- assert!(copy > 0)
  else
    recvCopy buf
      (if r + min (buf.length - r) todo = buf.length then 0
       else r + min (buf.length - r) todo)
      (todo - min (buf.length - r) todo)
      (out ++ (buf.drop r).take (min (buf.length - r) todo))
termination_by todo
decreasing_by omega

theorem sendCopy_spec (todo : Nat) : ∀ (buf src : List α) (r f i : Nat)
    (out' : List α) (s' i' : Nat),
    r < buf.length → f + todo ≤ buf.length → i + todo ≤ src.length →
    sendCopy buf ((r + f) % buf.length) src i todo = some (out', s', i') →
    out'.length = buf.length ∧ s' = (r + f + todo) % buf.length ∧
      i' = i + todo ∧
      rotl out' r = copySlice (rotl buf r) f ((src.drop i).take todo) := by
  induction todo using Nat.strong_induction_on with
  | _ todo IH =>
    intro buf src r f i out' s' i' hr hf hi h
    have hlen0 : 0 < buf.length := by omega
    have hslt : (r + f) % buf.length < buf.length := Nat.mod_lt _ hlen0
    rw [sendCopy] at h
    by_cases h0 : todo = 0
    · subst h0
      rw [if_pos rfl] at h
      obtain ⟨h1, h2, h3⟩ : buf = out' ∧ (r + f) % buf.length = s' ∧ i = i' := by
        simpa using h
      subst h1; subst h2; subst h3
      refine ⟨rfl, rfl, rfl, ?_⟩
      simp [copySlice_nil]
    · rw [if_neg h0] at h
      have hcopy : min (buf.length - (r + f) % buf.length) todo ≠ 0 := by omega
      rw [if_neg hcopy] at h
      set s := (r + f) % buf.length with hsdef
      set copy := min (buf.length - s) todo with hcdef
      have hs' : s = r + f ∨ s + buf.length = r + f := mod_cases_or _ _ (by omega)
      have hcle : copy ≤ todo := by omega
      have hcpos : 0 < copy := by omega
      have hsc : s + copy ≤ buf.length := by omega
      have hchunklen : ((src.drop i).take copy).length = copy := by
        simp
        omega
      have hblen : (copySlice buf s ((src.drop i).take copy)).length = buf.length := by
        rw [length_copySlice _ _ _ (by omega)]
      have hwrap : (if s + copy = buf.length then 0 else s + copy) =
          (r + (f + copy)) % (copySlice buf s ((src.drop i).take copy)).length := by
        rw [hblen]
        have h1 : (r + (f + copy)) % buf.length = (s + copy) % buf.length := by
          rcases hs' with h2 | h2
          · congr 1
            omega
          · have h3 : r + (f + copy) = s + copy + buf.length := by omega
            rw [h3, Nat.add_mod_right]
        rw [h1, mod_two_cases _ _ (by omega)]
        split_ifs <;> omega
      rw [hwrap] at h
      have := IH (todo - copy) (by omega) _ src r (f + copy) (i + copy) out' s' i'
        (by omega) (by rw [hblen]; omega) (by omega) h
      obtain ⟨l1, l2, l3, l4⟩ := this
      rw [hblen] at l1 l2
      refine ⟨l1, by rw [l2]; congr 1; omega, by omega, ?_⟩
      rw [l4]
      have hrc : rotl (copySlice buf s ((src.drop i).take copy)) r =
          copySlice (rotl buf r) f ((src.drop i).take copy) := by
        rw [hsdef]
        exact rotl_copySlice buf r f _ hr (by rw [hchunklen]; omega)
          (by rw [hchunklen, ← hsdef]; omega)
      rw [hrc]
      have hc2len : ((src.drop (i + copy)).take (todo - copy)).length = todo - copy := by
        simp
        omega
      have happ : copySlice (copySlice (rotl buf r) f ((src.drop i).take copy))
          (f + copy) ((src.drop (i + copy)).take (todo - copy)) =
          copySlice (rotl buf r) f
            ((src.drop i).take copy ++ (src.drop (i + copy)).take (todo - copy)) := by
        have := copySlice_append (rotl buf r) f ((src.drop i).take copy)
          ((src.drop (i + copy)).take (todo - copy))
          (by rw [length_rotl, hchunklen, hc2len]; omega)
        rw [hchunklen] at this
        exact this
      rw [happ]
      congr 1
      have : src.drop (i + copy) = (src.drop i).drop copy := by
        rw [List.drop_drop]
      rw [this, ← List.take_add]
      congr 1
      omega

theorem recvCopy_spec (todo : Nat) : ∀ (buf : List α) (r : Nat) (out : List α)
    (r' : Nat) (out' : List α),
    0 < buf.length → r < buf.length → todo ≤ buf.length →
    recvCopy buf r todo out = some (r', out') →
    r' = (r + todo) % buf.length ∧ out' = out ++ (rotl buf r).take todo := by
  induction todo using Nat.strong_induction_on with
  | _ todo IH =>
    intro buf r out r' out' hlen0 hr htodo h
    rw [recvCopy] at h
    by_cases h0 : todo = 0
    · subst h0
      rw [if_pos rfl] at h
      obtain ⟨h1, h2⟩ : r = r' ∧ out = out' := by simpa using h
      subst h1; subst h2
      refine ⟨(Nat.mod_eq_of_lt (by omega)).symm, by simp⟩
    · rw [if_neg h0] at h
      have hcopy : min (buf.length - r) todo ≠ 0 := by omega
      rw [if_neg hcopy] at h
      set copy := min (buf.length - r) todo with hcdef
      have hcle : copy ≤ todo := by omega
      have hcpos : 0 < copy := by omega
      have hrc : r + copy ≤ buf.length := by omega
      have hwrap : (if r + copy = buf.length then 0 else r + copy) =
          (r + copy) % buf.length := by
        rw [mod_two_cases _ _ (by omega)]
        split_ifs <;> omega
      rw [hwrap] at h
      have := IH (todo - copy) (by omega) buf ((r + copy) % buf.length)
        (out ++ (buf.drop r).take copy) r' out' hlen0 (Nat.mod_lt _ hlen0)
        (by omega) h
      obtain ⟨l1, l2⟩ := this
      constructor
      · rw [l1, Nat.mod_add_mod]
        congr 1
        omega
      · rw [l2]
        have hrot : rotl buf ((r + copy) % buf.length) = rotl (rotl buf r) copy :=
          rotl_rotl buf r copy hr (by omega)
        rw [hrot]
        have h1 : (buf.drop r).take copy = (rotl buf r).take copy := by
          unfold rotl
          rw [List.take_append_of_le_length (by simp; omega)]
        have h2 : (rotl (rotl buf r) copy).take (todo - copy) =
            ((rotl buf r).drop copy).take (todo - copy) := by
          unfold rotl
          rw [List.take_append_of_le_length (by simp [rotl]; omega)]
        rw [h1, h2, List.append_assoc]
        congr 1
        rw [← List.take_add]
        congr 1
        omega

/-! ### One locked pass of `send` / `recv`

`Sender::send` and `Receiver::recv` loop; each iteration takes the mutex,
waits on the condition variable, then transfers one burst.  `sendIter` and
`recvIter` model a single such locked pass.  `blocked` means the
`wait_while` predicate holds (the thread sleeps and the state does not
change); for `sendIter`, `dead` is the `return false` path taken when the
receiver has been dropped, and for `recvIter`, `drained` is the
`todo == 0 → break` path (sender dead, buffer empty).
-/

inductive SendRes (α : Type) where
  | blocked : SendRes α
  | dead : SendRes α
  | crashed : SendRes α
  | stepped : CB α → Nat → SendRes α
  deriving Repr, DecidableEq

inductive RecvRes (α : Type) where
  | blocked : RecvRes α
  | drained : RecvRes α
  | crashed : RecvRes α
  | stepped : CB α → List α → RecvRes α
  deriving Repr, DecidableEq

/-- One locked pass of `Sender::send`, entered with `src.len() - i > 0`.
`crashed` models a failed `assert!` (unreachable from a well-formed state). -/
def sendIter (cb : CB α) (src : List α) (i : Nat) : SendRes α :=
  if cb.recv_alive ∧ cb.filled = cb.cap then .blocked
  else if ¬ cb.recv_alive then .dead
  else if min (cb.cap - cb.filled) (src.length - i) = 0 then .crashed -- assert!(todo > 0)
  else
    match sendCopy cb.buf cb.send_i src i (min (cb.cap - cb.filled) (src.length - i)) with
    | none => .crashed
    | some (buf', s', i') =>
      .stepped
        { cb with
            buf := buf'
            send_i := s'
            filled := cb.filled + min (cb.cap - cb.filled) (src.length - i) }
        i'

/-- One locked pass of `Receiver::recv`, entered with `want > 0` elements
still requested. -/
def recvIter (cb : CB α) (want : Nat) : RecvRes α :=
  if cb.send_alive ∧ cb.filled = 0 then .blocked
  else if min cb.filled want = 0 then .drained
  else
    match recvCopy cb.buf cb.recv_i (min cb.filled want) [] with
    | none => .crashed
    | some (r', out) =>
      .stepped { cb with recv_i := r', filled := cb.filled - min cb.filled want } out

theorem sendCopy_ne_none (todo : Nat) : ∀ (buf src : List α) (s i : Nat),
    s < buf.length → sendCopy buf s src i todo ≠ none := by
  induction todo using Nat.strong_induction_on with
  | _ todo IH =>
    intro buf src s i hs
    rw [sendCopy]
    by_cases h0 : todo = 0
    · rw [if_pos h0]
      exact Option.noConfusion
    · rw [if_neg h0, if_neg (by omega)]
      have hchunk : ((src.drop i).take (min (buf.length - s) todo)).length ≤
          min (buf.length - s) todo := by
        simp
      have hblen : (copySlice buf s ((src.drop i).take (min (buf.length - s) todo))).length
          = buf.length :=
        length_copySlice _ _ _ (by omega)
      apply IH _ (by omega)
      rw [hblen]
      split_ifs <;> omega

theorem recvCopy_ne_none (todo : Nat) : ∀ (buf : List α) (r : Nat) (out : List α),
    r < buf.length → recvCopy buf r todo out ≠ none := by
  induction todo using Nat.strong_induction_on with
  | _ todo IH =>
    intro buf r out hr
    rw [recvCopy]
    by_cases h0 : todo = 0
    · rw [if_pos h0]
      exact Option.noConfusion
    · rw [if_neg h0, if_neg (by omega)]
      apply IH _ (by omega)
      split_ifs <;> omega

theorem take_copySlice (X : List α) (f : Nat) (chunk : List α) (hf : f ≤ X.length) :
    (copySlice X f chunk).take (f + chunk.length) = X.take f ++ chunk := by
  unfold copySlice
  have h1 : f + chunk.length = (X.take f ++ chunk).length := by
    simp
    omega
  rw [h1, List.append_assoc, ← List.append_assoc (X.take f) chunk, List.take_left]

theorem sendIter_spec (cb : CB α) (src : List α) (i : Nat)
    (hwf : cb.Wf) (halive : cb.recv_alive = true) (hnotfull : cb.filled < cb.cap)
    (hi : i < src.length) :
    ∃ cb', sendIter cb src i =
        .stepped cb' (i + min (cb.cap - cb.filled) (src.length - i)) ∧
      cb'.Wf ∧ cb'.cap = cb.cap ∧ cb'.recv_i = cb.recv_i ∧
      cb'.send_alive = cb.send_alive ∧ cb'.recv_alive = cb.recv_alive ∧
      cb'.filled = cb.filled + min (cb.cap - cb.filled) (src.length - i) ∧
      cb'.contents = cb.contents ++
        (src.drop i).take (min (cb.cap - cb.filled) (src.length - i)) := by
  have hcap : cb.cap = cb.buf.length := rfl
  obtain ⟨hc0, hsi, hri, hfle, hseq⟩ := hwf
  set todo := min (cb.cap - cb.filled) (src.length - i) with htdef
  have htpos : 0 < todo := by omega
  rcases hcs : sendCopy cb.buf cb.send_i src i todo with _ | ⟨buf', s', i'⟩
  · exact absurd hcs (sendCopy_ne_none todo cb.buf src cb.send_i i (by omega))
  · have hseq' : cb.send_i = (cb.recv_i + cb.filled) % cb.buf.length := hseq
    have hspec := sendCopy_spec todo cb.buf src cb.recv_i cb.filled i buf' s' i'
      (by omega) (by omega) (by omega) (by rw [← hseq']; exact hcs)
    obtain ⟨hblen, hs', hi', hrot⟩ := hspec
    have hchunklen : ((src.drop i).take todo).length = todo := by
      simp
      omega
    have hunfold : sendIter cb src i =
        .stepped { cb with buf := buf', send_i := s', filled := cb.filled + todo } i' := by
      unfold sendIter
      rw [if_neg (fun h => absurd h.2 (by omega)), if_neg (by simp [halive]),
        if_neg (by omega), ← htdef, hcs]
    refine ⟨{ cb with buf := buf', send_i := s', filled := cb.filled + todo },
      by rw [hunfold, hi'], ?_, ?_, rfl, rfl, rfl, rfl, ?_⟩
    · refine ⟨?_, ?_, ?_, ?_, ?_⟩
      · show 0 < buf'.length
        omega
      · show s' < buf'.length
        rw [hs', hblen]
        exact Nat.mod_lt _ (by omega)
      · show cb.recv_i < buf'.length
        omega
      · show cb.filled + todo ≤ buf'.length
        omega
      · show s' = (cb.recv_i + (cb.filled + todo)) % buf'.length
        rw [hs', hblen]
        congr 1
        omega
    · show buf'.length = cb.cap
      omega
    · show (rotl buf' cb.recv_i).take (cb.filled + todo) =
        (rotl cb.buf cb.recv_i).take cb.filled ++ (src.drop i).take todo
      rw [hrot]
      rw [show cb.filled + todo = cb.filled + ((src.drop i).take todo).length from by
        rw [hchunklen]]
      rw [take_copySlice _ _ _ (by rw [length_rotl]; omega)]

theorem recvIter_spec (cb : CB α) (want : Nat)
    (hwf : cb.Wf) (hwant : 0 < want) (hfill : 0 < cb.filled) :
    ∃ cb', recvIter cb want = .stepped cb' (cb.contents.take (min cb.filled want)) ∧
      cb'.Wf ∧ cb'.cap = cb.cap ∧ cb'.buf = cb.buf ∧ cb'.send_i = cb.send_i ∧
      cb'.send_alive = cb.send_alive ∧ cb'.recv_alive = cb.recv_alive ∧
      cb'.filled = cb.filled - min cb.filled want ∧
      cb'.contents = cb.contents.drop (min cb.filled want) := by
  have hcap : cb.cap = cb.buf.length := rfl
  obtain ⟨hc0, hsi, hri, hfle, hseq⟩ := hwf
  set todo := min cb.filled want with htdef
  have htpos : 0 < todo := by omega
  rcases hcs : recvCopy cb.buf cb.recv_i todo [] with _ | ⟨r', out⟩
  · exact absurd hcs (recvCopy_ne_none todo cb.buf cb.recv_i [] (by omega))
  · have hspec := recvCopy_spec todo cb.buf cb.recv_i [] r' out
      (by omega) (by omega) (by omega) hcs
    obtain ⟨hr', hout⟩ := hspec
    have hout2 : out = cb.contents.take todo := by
      rw [hout, List.nil_append]
      show _ = ((rotl cb.buf cb.recv_i).take cb.filled).take todo
      rw [List.take_take]
      congr 1
      omega
    have hunfold : recvIter cb want =
        .stepped { cb with recv_i := r', filled := cb.filled - todo } out := by
      unfold recvIter
      rw [if_neg (fun h => absurd h.2 (by omega)), if_neg (by omega), ← htdef, hcs]
    refine ⟨{ cb with recv_i := r', filled := cb.filled - todo },
      by rw [hunfold, hout2], ?_, rfl, rfl, rfl, rfl, rfl, rfl, ?_⟩
    · refine ⟨?_, ?_, ?_, ?_, ?_⟩
      · show 0 < cb.buf.length
        omega
      · show cb.send_i < cb.buf.length
        omega
      · show r' < cb.buf.length
        rw [hr']
        exact Nat.mod_lt _ (by omega)
      · show cb.filled - todo ≤ cb.buf.length
        omega
      · show cb.send_i = (r' + (cb.filled - todo)) % cb.buf.length
        rw [hr', Nat.mod_add_mod, hseq]
        congr 1
        omega
    · show (rotl cb.buf r').take (cb.filled - todo) =
        ((rotl cb.buf cb.recv_i).take cb.filled).drop todo
      rw [hr']
      rw [rotl_rotl cb.buf cb.recv_i todo (by omega) (by omega)]
      rw [List.drop_take]
      rw [show rotl (rotl cb.buf cb.recv_i) todo =
            (rotl cb.buf cb.recv_i).drop todo ++ (rotl cb.buf cb.recv_i).take todo from rfl]
      rw [List.take_append_of_le_length (by rw [List.length_drop, length_rotl]; omega)]

theorem sendCopy_some_i (todo : Nat) : ∀ (buf src : List α) (s i : Nat)
    (b : List α) (s' i' : Nat),
    sendCopy buf s src i todo = some (b, s', i') → i' = i + todo := by
  induction todo using Nat.strong_induction_on with
  | _ todo IH =>
    intro buf src s i b s' i' h
    rw [sendCopy] at h
    by_cases h0 : todo = 0
    · subst h0
      rw [if_pos rfl] at h
      obtain ⟨-, -, h3⟩ : buf = b ∧ s = s' ∧ i = i' := by simpa using h
      omega
    · rw [if_neg h0] at h
      by_cases hc : min (buf.length - s) todo = 0
      · rw [if_pos hc] at h
        exact Option.noConfusion h
      · rw [if_neg hc] at h
        have := IH (todo - min (buf.length - s) todo) (by omega) _ _ _ _ _ _ _ h
        omega

theorem recvCopy_some_len (todo : Nat) : ∀ (buf : List α) (r : Nat) (out : List α)
    (r' : Nat) (out' : List α),
    recvCopy buf r todo out = some (r', out') → out'.length = out.length + todo := by
  induction todo using Nat.strong_induction_on with
  | _ todo IH =>
    intro buf r out r' out' h
    rw [recvCopy] at h
    by_cases h0 : todo = 0
    · subst h0
      rw [if_pos rfl] at h
      obtain ⟨-, h2⟩ : r = r' ∧ out = out' := by simpa using h
      subst h2
      omega
    · rw [if_neg h0] at h
      by_cases hc : min (buf.length - r) todo = 0
      · rw [if_pos hc] at h
        exact Option.noConfusion h
      · rw [if_neg hc] at h
        have := IH (todo - min (buf.length - r) todo) (by omega) _ _ _ _ _ h
        rw [this]
        simp only [List.length_append, List.length_take, List.length_drop]
        omega

theorem sendIter_stepped_bounds (cb : CB α) (src : List α) (i : Nat)
    (cb' : CB α) (i' : Nat) (h : sendIter cb src i = .stepped cb' i') :
    i < i' ∧ i' ≤ src.length := by
  unfold sendIter at h
  split at h
  · exact SendRes.noConfusion h
  · split at h
    · exact SendRes.noConfusion h
    · split at h
      · exact SendRes.noConfusion h
      · split at h
        · exact SendRes.noConfusion h
        · rename_i hmin buf' s' i'' heq
          obtain ⟨-, h2⟩ : _ ∧ i'' = i' := by
            constructor
            · exact congrArg (fun r => match r with
                | SendRes.stepped cb _ => cb
                | _ => cb) h
            · exact congrArg (fun r => match r with
                | SendRes.stepped _ j => j
                | _ => i'') h
          have := sendCopy_some_i _ _ _ _ _ _ _ _ heq
          omega

theorem recvIter_stepped_bounds (cb : CB α) (want : Nat)
    (cb' : CB α) (chunk : List α) (h : recvIter cb want = .stepped cb' chunk) :
    0 < chunk.length ∧ chunk.length ≤ want := by
  unfold recvIter at h
  split at h
  · exact RecvRes.noConfusion h
  · split at h
    · exact RecvRes.noConfusion h
    · split at h
      · exact RecvRes.noConfusion h
      · rename_i hmin r' out heq
        have h2 : out = chunk := by
          exact congrArg (fun r => match r with
            | RecvRes.stepped _ c => c
            | _ => out) h
        subst h2
        have := recvCopy_some_len _ _ _ _ _ _ heq
        simp at this
        omega

/-! ### Complete `send` / `recv` calls, uninterfered

`sendLoop`/`recvLoop` run the outer `loop` of `Sender::send` /
`Receiver::recv` to completion assuming no concurrent activity from the
other endpoint (which is exact once that endpoint's thread has dropped its
handle).  `none` models a call that blocks forever on the condition
variable (or a failed assertion, unreachable from well-formed states).
-/

def sendLoop (cb : CB α) (src : List α) (i : Nat) : Option (CB α × Bool × Nat) :=
  if src.length - i = 0 then some (cb, true, i)
  else
    match h2 : sendIter cb src i with
    | .blocked => none
    | .dead => some (cb, false, i)
    | .crashed => none
    | .stepped cb' i' => sendLoop cb' src i'
termination_by src.length - i
decreasing_by
  have := sendIter_stepped_bounds _ _ _ _ _ h2
  omega

def recvLoop (cb : CB α) (n i : Nat) (out : List α) : Option (CB α × Nat × List α) :=
  if n - i = 0 then some (cb, i, out)
  else
    match h2 : recvIter cb (n - i) with
    | .blocked => none
    | .drained => some (cb, i, out)
    | .crashed => none
    | .stepped cb' chunk => recvLoop cb' n (i + chunk.length) (out ++ chunk)
termination_by n - i
decreasing_by
  have := recvIter_stepped_bounds _ _ _ _ h2
  omega

/-- `Sender::send(buf)`, run to completion with no concurrent receiver
activity.  Returns the final channel state, the boolean result, and the
number of elements written. -/
def send (cb : CB α) (src : List α) : Option (CB α × Bool × Nat) :=
  sendLoop cb src 0

/-- `Receiver::recv(buf)` with `buf.len() = n`, run to completion with no
concurrent sender activity.  Returns the final channel state, the returned
count, and the elements copied to the caller's buffer, in order. -/
def recv (cb : CB α) (n : Nat) : Option (CB α × Nat × List α) :=
  recvLoop cb n 0 []

/-- The `wait_while` predicate of `Receiver::wait_full`: the call sleeps
while this is `true` and returns exactly when it is `false`. -/
def waitFullGate (cb : CB α) : Bool :=
  cb.send_alive && decide (cb.filled < cb.cap)

/-- `Receiver::recv` once the sender is dead: the call never blocks, drains
`min(filled, requested)` elements from the front of the buffer, and leaves a
well-formed state with the rest.  Stated for an arbitrary loop entry point
`(i, out)` so that it can be proved by induction on the remaining request. -/
theorem recvLoop_dead (k : Nat) : ∀ (cb : CB α) (n i : Nat) (out : List α),
    cb.Wf → cb.send_alive = false → k = n - i →
    ∃ cb', recvLoop cb n i out =
        some (cb', i + min cb.filled (n - i),
          out ++ cb.contents.take (min cb.filled (n - i))) ∧
      cb'.Wf ∧ cb'.send_alive = false ∧ cb'.recv_alive = cb.recv_alive ∧
      cb'.cap = cb.cap ∧
      cb'.filled = cb.filled - min cb.filled (n - i) ∧
      cb'.contents = cb.contents.drop (min cb.filled (n - i)) := by
  induction k using Nat.strong_induction_on with
  | _ k IH =>
    intro cb n i out hwf hdead hk
    have hfle : cb.filled ≤ cb.cap := hwf.2.2.2.1
    by_cases h0 : n - i = 0
    · refine ⟨cb, ?_, hwf, hdead, rfl, rfl, by omega, by rw [h0]; simp⟩
      rw [recvLoop, if_pos h0, h0]
      simp
    · by_cases hfill : cb.filled = 0
      · have hiter : recvIter cb (n - i) = .drained := by
          unfold recvIter
          rw [if_neg (by simp [hdead]), if_pos (by omega)]
        refine ⟨cb, ?_, hwf, hdead, rfl, rfl, by omega, by rw [hfill]; simp⟩
        rw [recvLoop, if_neg h0, hiter, hfill]
        simp
      · obtain ⟨cb1, hiter, hwf1, hcap1, hbuf1, hsi1, hsa1, hra1, hfill1, hcont1⟩ :=
          recvIter_spec cb (n - i) hwf (by omega) (by omega)
        set t := min cb.filled (n - i) with htdef
        have hchunklen : (cb.contents.take t).length = t := by
          rw [List.length_take, CB.length_contents cb hfle]
          omega
        obtain ⟨cb', hrec, hwf', hdead', hra', hcap', hfill', hcont'⟩ :=
          IH (n - (i + t)) (by omega) cb1 n (i + t) (out ++ cb.contents.take t)
            hwf1 (by rw [hsa1]; exact hdead) rfl
        have hmin0 : min cb1.filled (n - (i + t)) = 0 := by
          rw [hfill1]
          omega
        have hstep : recvLoop cb n i out =
            recvLoop cb1 n (i + (cb.contents.take t).length) (out ++ cb.contents.take t) := by
          rw [recvLoop, if_neg h0]
          split <;> rename_i h2 <;> rw [hiter] at h2
          · exact RecvRes.noConfusion h2
          · exact RecvRes.noConfusion h2
          · exact RecvRes.noConfusion h2
          · injection h2 with he1 he2
            subst he1
            subst he2
            rfl
        refine ⟨cb', ?_, hwf', hdead', by rw [hra', hra1], by rw [hcap', hcap1],
          ?_, ?_⟩
        · rw [hstep, hchunklen, hrec, hmin0]
          simp
        · rw [hfill', hmin0, hfill1]
          omega
        · rw [hcont', hmin0, hcont1]
          simp


/-- `Receiver::recv` when the buffer already holds at least the requested
count: the call returns the full request from the front of the buffer
(no blocking, regardless of sender liveness). -/
theorem recv_all (cb : CB α) (n : Nat) (hwf : cb.Wf) (hn : n ≤ cb.filled) :
    ∃ cb', recv cb n = some (cb', n, cb.contents.take n) ∧ cb'.Wf ∧
      cb'.send_alive = cb.send_alive ∧ cb'.recv_alive = cb.recv_alive ∧
      cb'.cap = cb.cap ∧ cb'.filled = cb.filled - n ∧
      cb'.contents = cb.contents.drop n := by
  have hfle : cb.filled ≤ cb.cap := hwf.2.2.2.1
  by_cases h0 : n = 0
  · subst h0
    refine ⟨cb, ?_, hwf, rfl, rfl, rfl, by omega, by simp⟩
    rw [recv, recvLoop, if_pos (by omega)]
    simp
  · obtain ⟨cb1, hiter, hwf1, hcap1, hbuf1, hsi1, hsa1, hra1, hfill1, hcont1⟩ :=
      recvIter_spec cb n hwf (by omega) (by omega)
    have hmin : min cb.filled n = n := by omega
    rw [hmin] at hiter hfill1 hcont1
    have hchunklen : (cb.contents.take n).length = n := by
      rw [List.length_take, CB.length_contents cb hfle]
      omega
    have hstep : recvLoop cb n 0 [] =
        recvLoop cb1 n (0 + (cb.contents.take n).length) ([] ++ cb.contents.take n) := by
      rw [recvLoop, if_neg (by omega)]
      split <;> rename_i h2 <;> rw [show n - 0 = n from by omega, hiter] at h2
      · exact RecvRes.noConfusion h2
      · exact RecvRes.noConfusion h2
      · exact RecvRes.noConfusion h2
      · injection h2 with he1 he2
        subst he1
        subst he2
        rfl
    refine ⟨cb1, ?_, hwf1, hsa1, hra1, hcap1, by omega, hcont1⟩
    rw [recv, hstep, hchunklen, recvLoop, if_pos (by omega)]
    simp

/-- `Sender::send(&[])` returns `true` at once: the `todo == 0` check at
the top of the loop precedes any look at the receiver's liveness. -/
theorem send_nil (cb : CB α) : send cb ([] : List α) = some (cb, true, 0) := by
  rw [send, sendLoop]
  simp

/-- A non-empty `Sender::send` entered with the receiver already dropped:
the first locked pass observes `!recv_alive` and returns `false` without
copying anything. -/
theorem send_dead (cb : CB α) (src : List α) (hdead : cb.recv_alive = false)
    (hne : 0 < src.length) :
    send cb src = some (cb, false, 0) := by
  have hiter : sendIter cb src 0 = .dead := by
    unfold sendIter
    rw [if_neg (by simp [hdead]), if_pos (by simp [hdead])]
  rw [send, sendLoop, if_neg (by omega)]
  split <;> rename_i h2 <;> rw [hiter] at h2
  all_goals first | rfl | exact SendRes.noConfusion h2

/-! ### Interleaved executions of the two endpoint threads

The producer thread calls `send` on a queue of slices; the consumer thread
calls `recv` on a queue of request sizes.  Each scheduler action executes
one locked pass (`sendIter`/`recvIter`) of the call in progress — exactly
the granularity at which the two threads can interleave, since all state is
guarded by the one mutex — or drops one endpoint (the two `Drop` impls).
`pushed` is a ghost trace of every element copied into the ring, `out` of
every element copied to the callers of `recv`, in order.
-/

structure ProdSt (α : Type) where
  cur : List α
  i : Nat
  pending : List (List α)
  failed : Bool
  deriving Repr, DecidableEq

structure ConsSt where
  want : Nat
  pending : List Nat
  deriving Repr, DecidableEq

structure Sys (α : Type) where
  cb : CB α
  prod : ProdSt α
  cons : ConsSt
  out : List α
  pushed : List α
  deriving Repr, DecidableEq

inductive Act where
  | doSend : Act
  | doRecv : Act
  | dropS : Act
  | dropR : Act
  deriving Repr, DecidableEq

/-- One scheduler step of the producer thread. -/
def prodStep (sys : Sys α) : Sys α :=
  if sys.prod.failed then sys
  else if sys.prod.i = sys.prod.cur.length then
    -- the current `send` call has returned `true`; begin the next one
    match sys.prod.pending with
    | [] => sys
    | s :: rest => { sys with prod := ⟨s, 0, rest, false⟩ }
  else
    match sendIter sys.cb sys.prod.cur sys.prod.i with
    | .blocked => sys
    | .dead => { sys with prod := { sys.prod with failed := true } }
    | .crashed => sys
    | .stepped cb' i' => { sys with cb := cb', prod := { sys.prod with i := i' }, pushed := sys.pushed ++ (sys.prod.cur.drop sys.prod.i).take (i' - sys.prod.i) }

/-- One scheduler step of the consumer thread. -/
def consStep (sys : Sys α) : Sys α :=
  if sys.cons.want = 0 then
    -- the current `recv` call has returned; begin the next one
    match sys.cons.pending with
    | [] => sys
    | n :: rest => { sys with cons := ⟨n, rest⟩ }
  else
    match recvIter sys.cb sys.cons.want with
    | .blocked => sys
    | .drained => { sys with cons := { sys.cons with want := 0 } }
    | .crashed => sys
    | .stepped cb' chunk => { sys with cb := cb', cons := { sys.cons with want := sys.cons.want - chunk.length }, out := sys.out ++ chunk }

/-- `impl Drop for Sender` / `impl Drop for Receiver`: flip a liveness flag. -/
def stepA (sys : Sys α) : Act → Sys α
  | .doSend => prodStep sys
  | .doRecv => consStep sys
  | .dropS => { sys with cb := { sys.cb with send_alive := false } }
  | .dropR => { sys with cb := { sys.cb with recv_alive := false } }

def run (sys : Sys α) (as : List Act) : Sys α := as.foldl stepA sys

/-- Fresh channel of capacity `len`, a producer about to send `slices` in
order, a consumer about to issue requests of sizes `reqs` in order. -/
def initSys (α : Type) [Inhabited α] (len : Nat) (slices : List (List α))
    (reqs : List Nat) : Sys α :=
  { cb := circbufInit α len, prod := ⟨[], 0, slices, false⟩, cons := ⟨0, reqs⟩,
    out := [], pushed := [] }

/-- The FIFO invariant: received data followed by buffered data is exactly
the pushed trace; the pushed trace followed by everything not yet copied is
exactly the concatenation of all slices handed to `send`. -/
def SysInv (total : List α) (sys : Sys α) : Prop :=
  sys.cb.Wf ∧
  sys.out ++ sys.cb.contents = sys.pushed ∧
  sys.prod.i ≤ sys.prod.cur.length ∧
  sys.pushed ++ sys.prod.cur.drop sys.prod.i ++ sys.prod.pending.flatten = total

theorem sendIter_stepped_inv (cb : CB α) (src : List α) (i : Nat)
    (cb' : CB α) (i' : Nat) (h : sendIter cb src i = .stepped cb' i') :
    cb.recv_alive = true ∧ cb.filled ≠ cb.cap ∧ i < src.length := by
  unfold sendIter at h
  split at h
  · exact SendRes.noConfusion h
  · rename_i h1
    split at h
    · exact SendRes.noConfusion h
    · rename_i h2
      split at h
      · exact SendRes.noConfusion h
      · rename_i h3
        have halive : cb.recv_alive = true := by
          by_contra hx
          exact h2 (by simp [Bool.not_eq_true] at hx ⊢; simp [hx])
        refine ⟨halive, fun hfull => h1 ⟨by simp [halive], hfull⟩, by omega⟩

theorem recvIter_stepped_inv (cb : CB α) (want : Nat)
    (cb' : CB α) (chunk : List α) (h : recvIter cb want = .stepped cb' chunk) :
    0 < cb.filled ∧ 0 < want := by
  unfold recvIter at h
  split at h
  · exact RecvRes.noConfusion h
  · rename_i h1
    split at h
    · exact RecvRes.noConfusion h
    · rename_i h2
      omega

theorem SysInv_init (α : Type) [Inhabited α] (len : Nat) (slices : List (List α))
    (reqs : List Nat) (hlen : 0 < len) :
    SysInv slices.flatten (initSys α len slices reqs) := by
  refine ⟨circbufInit_Wf α len hlen, ?_, by simp [initSys], ?_⟩
  · show ([] : List α) ++ (circbufInit α len).contents = ([] : List α)
    rw [circbufInit_contents]
    rfl
  · simp [initSys]

theorem SysInv_step (total : List α) (sys : Sys α) (a : Act)
    (h : SysInv total sys) : SysInv total (stepA sys a) := by
  obtain ⟨hwf, hfifo, hile, htot⟩ := h
  cases a
  case dropS => exact ⟨hwf, hfifo, hile, htot⟩
  case dropR => exact ⟨hwf, hfifo, hile, htot⟩
  case doSend =>
    show SysInv total (prodStep sys)
    unfold prodStep
    by_cases hf : sys.prod.failed
    · rw [if_pos hf]
      exact ⟨hwf, hfifo, hile, htot⟩
    · rw [if_neg hf]
      by_cases hdone : sys.prod.i = sys.prod.cur.length
      · rw [if_pos hdone]
        rcases hpend : sys.prod.pending with _ | ⟨s, rest⟩
        · exact ⟨hwf, hfifo, hile, htot⟩
        · refine ⟨hwf, hfifo, by simp, ?_⟩
          have h1 : sys.prod.cur.drop sys.prod.i = [] := by
            rw [hdone]
            simp
          rw [hpend, h1] at htot
          simp only [List.flatten_cons, List.nil_append] at htot
          simpa using htot
      · rw [if_neg hdone]
        rcases hiter : sendIter sys.cb sys.prod.cur sys.prod.i with _ | _ | _ | ⟨cb', i'⟩
        · exact ⟨hwf, hfifo, hile, htot⟩
        · exact ⟨hwf, hfifo, hile, htot⟩
        · exact ⟨hwf, hfifo, hile, htot⟩
        · obtain ⟨halive, hnotfull, hlt⟩ := sendIter_stepped_inv _ _ _ _ _ hiter
          have hfle := hwf.2.2.2.1
          obtain ⟨cb2, hiter2, hwf2, hcap2, hri2, hsa2, hra2, hfill2, hcont2⟩ :=
            sendIter_spec sys.cb sys.prod.cur sys.prod.i hwf halive (by omega) hlt
          rw [hiter] at hiter2
          injection hiter2 with he1 he2
          subst he1
          set todo := min (sys.cb.cap - sys.cb.filled) (sys.prod.cur.length - sys.prod.i)
            with htdef
          have hseg : i' - sys.prod.i = todo := by omega
          refine ⟨hwf2, ?_, ?_, ?_⟩
          · show sys.out ++ cb'.contents =
              sys.pushed ++ (sys.prod.cur.drop sys.prod.i).take (i' - sys.prod.i)
            rw [hcont2, hseg, ← List.append_assoc, hfifo]
          · show i' ≤ sys.prod.cur.length
            omega
          · show sys.pushed ++ (sys.prod.cur.drop sys.prod.i).take (i' - sys.prod.i) ++
              sys.prod.cur.drop i' ++ sys.prod.pending.flatten = total
            rw [hseg, he2]
            have hsplit : (sys.prod.cur.drop sys.prod.i).take todo ++
                sys.prod.cur.drop (sys.prod.i + todo) = sys.prod.cur.drop sys.prod.i := by
              rw [show sys.prod.cur.drop (sys.prod.i + todo) =
                    (sys.prod.cur.drop sys.prod.i).drop todo from by rw [List.drop_drop],
                List.take_append_drop]
            rw [List.append_assoc sys.pushed, hsplit]
            exact htot
  case doRecv =>
    show SysInv total (consStep sys)
    unfold consStep
    by_cases hw : sys.cons.want = 0
    · rw [if_pos hw]
      rcases hpend : sys.cons.pending with _ | ⟨n, rest⟩
      · exact ⟨hwf, hfifo, hile, htot⟩
      · exact ⟨hwf, hfifo, hile, htot⟩
    · rw [if_neg hw]
      rcases hiter : recvIter sys.cb sys.cons.want with _ | _ | _ | ⟨cb', chunk⟩
      · exact ⟨hwf, hfifo, hile, htot⟩
      · exact ⟨hwf, hfifo, hile, htot⟩
      · exact ⟨hwf, hfifo, hile, htot⟩
      · obtain ⟨hfill, hwant⟩ := recvIter_stepped_inv _ _ _ _ hiter
        obtain ⟨cb2, hiter2, hwf2, hcap2, hbuf2, hsi2, hsa2, hra2, hfill2, hcont2⟩ :=
          recvIter_spec sys.cb sys.cons.want hwf hwant hfill
        rw [hiter] at hiter2
        injection hiter2 with he1 he2
        subst he1
        refine ⟨hwf2, ?_, hile, htot⟩
        show (sys.out ++ chunk) ++ cb'.contents = sys.pushed
        rw [he2, hcont2, List.append_assoc, List.take_append_drop]
        exact hfifo

theorem SysInv_run (total : List α) (as : List Act) : ∀ (sys : Sys α),
    SysInv total sys → SysInv total (run sys as) := by
  induction as with
  | nil => intro sys h; exact h
  | cons a as IH =>
    intro sys h
    exact IH (stepA sys a) (SysInv_step total sys a h)

/-! ## Audio engine mixer (`src/lib/src/audio/engine.rs`)

`mixTick` models one invocation of the closure passed to
`device.build_output_stream` in `AudioEngine::build_stream`.  Each active
source is abstracted by what its `get_samples` call does this tick: the
`AudioSourceState` it returns and the samples it leaves in `source_buf`
(`f32` samples modelled as `ℚ`).  `start_pos` is the source's
`Arc<AtomicU64>` cell with the `INACTIVE = u64::MAX` sentinel.
-/

inductive AudioSourceState where
  | Inactive : AudioSourceState
  | Playing : AudioSourceState
  | Done : AudioSourceState
  deriving Repr, DecidableEq

/-- `const INACTIVE: u64 = u64::MAX`. -/
def INACTIVE : Nat := 2 ^ 64 - 1

/-- `const CHANNELS: u16 = 2`. -/
def CHANNELS : Nat := 2

/-- A `SourceInfo` slot as the mixer sees it on one tick. -/
structure SourceInfo where
  start_pos : Nat
  result : AudioSourceState
  samples : List ℚ
  deriving Repr, DecidableEq

/-- `Vec::swap_remove(i)`: overwrite position `i` with the last element and
pop the last element. -/
def swapRemove (l : List α) (i : Nat) : List α :=
  match l.getLast? with
  | none => l
  | some x => (l.set i x).dropLast

theorem length_swapRemove (l : List α) (i : Nat) (h : l ≠ []) :
    (swapRemove l i).length = l.length - 1 := by
  unfold swapRemove
  rw [List.getLast?_eq_getLast l h]
  simp

/-- `for (src, dst) in source_buf.iter().zip(buf.iter_mut()) { *dst += *src }`:
positions past the zipped range are left unchanged. -/
def mixAdd (buf samples : List ℚ) : List ℚ :=
  List.zipWith (fun d s => d + s) buf samples ++ buf.drop samples.length

theorem mixAdd_nil (buf : List ℚ) : mixAdd buf [] = buf := by
  simp [mixAdd]

theorem nil_mixAdd (samples : List ℚ) : mixAdd [] samples = [] := by
  simp [mixAdd]

theorem mixAdd_cons (b s : ℚ) (tb ts : List ℚ) :
    mixAdd (b :: tb) (s :: ts) = (b + s) :: mixAdd tb ts := by
  simp [mixAdd]

theorem mixAdd_comm (b : List ℚ) : ∀ (x y : List ℚ),
    mixAdd (mixAdd b x) y = mixAdd (mixAdd b y) x := by
  induction b with
  | nil => intro x y; simp [nil_mixAdd]
  | cons hb tb IH =>
    intro x y
    rcases x with _ | ⟨hx, tx⟩
    · simp [mixAdd_nil]
    · rcases y with _ | ⟨hy, ty⟩
      · simp [mixAdd_nil]
      · simp only [mixAdd_cons]
        rw [IH]
        congr 1
        ring

theorem length_mixAdd (buf samples : List ℚ) : (mixAdd buf samples).length = buf.length := by
  simp [mixAdd]
  omega

/-- The per-source action of the mixer pass on the output buffer. -/
def mixStep (buf : List ℚ) (info : SourceInfo) : List ℚ :=
  if info.result = AudioSourceState.Playing then mixAdd buf info.samples else buf

/-- The accumulated output of a mixer pass over `infos`, starting from `buf`:
each `Playing` source's samples are added elementwise. -/
def mixFold (infos : List SourceInfo) (buf : List ℚ) : List ℚ :=
  infos.foldl mixStep buf

theorem mixStep_comm (b : List ℚ) (x y : SourceInfo) :
    mixStep (mixStep b x) y = mixStep (mixStep b y) x := by
  unfold mixStep
  split_ifs <;> first | rfl | rw [mixAdd_comm]

theorem mixFold_step_comm (l : List SourceInfo) : ∀ (b : List ℚ) (x : SourceInfo),
    mixFold l (mixStep b x) = mixStep (mixFold l b) x := by
  induction l with
  | nil => intro b x; rfl
  | cons h t IH =>
    intro b x
    show mixFold t (mixStep (mixStep b x) h) = mixStep (mixFold t (mixStep b h)) x
    rw [mixStep_comm, IH]

/-- Move the last element of a list to the front (the effect of
`swap_remove` on the part of the list the loop has not visited yet). -/
def rotLast (l : List α) : List α :=
  match l.getLast? with
  | none => l
  | some x => x :: l.dropLast

theorem countP_rotLast (p : α → Bool) (l : List α) :
    (rotLast l).countP p = l.countP p := by
  unfold rotLast
  rcases hlast : l.getLast? with _ | x
  · rfl
  · have hne : l ≠ [] := by
      intro hx
      subst hx
      simp at hlast
    have hx : x = l.getLast hne := by
      rw [List.getLast?_eq_getLast l hne] at hlast
      exact (Option.some.inj hlast).symm
    subst hx
    conv_rhs => rw [← List.dropLast_append_getLast hne]
    rw [List.countP_cons, List.countP_append]
    simp [List.countP_cons, List.countP_nil]

theorem mixFold_rotLast (l : List SourceInfo) (buf : List ℚ) :
    mixFold (rotLast l) buf = mixFold l buf := by
  unfold rotLast
  rcases hlast : l.getLast? with _ | x
  · rfl
  · have hne : l ≠ [] := by
      intro hx
      subst hx
      simp at hlast
    have hx : x = l.getLast hne := by
      rw [List.getLast?_eq_getLast l hne] at hlast
      exact (Option.some.inj hlast).symm
    subst hx
    conv_rhs => rw [← List.dropLast_append_getLast hne]
    show mixFold l.dropLast (mixStep buf (l.getLast hne)) = _
    rw [mixFold_step_comm]
    unfold mixFold
    rw [List.foldl_append]
    rfl

theorem drop_swapRemove (l : List α) (i : Nat) (h : i < l.length) :
    (swapRemove l i).drop i = rotLast (l.drop (i + 1)) := by
  have hne : l ≠ [] := List.length_pos.mp (by omega)
  by_cases hemp : i + 1 = l.length
  · have h1 : l.drop (i + 1) = [] := by
      apply List.drop_eq_nil_of_le
      omega
    rw [h1]
    have h2 : ((swapRemove l i).drop i).length = 0 := by
      rw [List.length_drop, length_swapRemove l i hne]
      omega
    rw [List.length_eq_zero.mp h2]
    rfl
  · have hrne : l.drop (i + 1) ≠ [] := by
      rw [← List.length_pos, List.length_drop]
      omega
    have hlastd : (l.drop (i + 1)).getLast hrne = l.getLast hne := by
      rw [List.getLast_eq_getElem, List.getLast_eq_getElem]
      rw [List.getElem_drop]
      congr 1
      rw [List.length_drop]
      omega
    unfold rotLast
    rw [List.getLast?_eq_getLast _ hrne, hlastd]
    unfold swapRemove
    rw [List.getLast?_eq_getLast l hne]
    dsimp only
    apply List.ext_getElem?
    intro j
    have hlen1 : ((l.set i (l.getLast hne)).dropLast.drop i).length = l.length - 1 - i := by
      rw [List.length_drop, List.length_dropLast, List.length_set]
    have hlen2 : (l.getLast hne :: (l.drop (i + 1)).dropLast).length = l.length - 1 - i := by
      rw [List.length_cons, List.length_dropLast, List.length_drop]
      omega
    by_cases hj : j < l.length - 1 - i
    · rw [List.getElem?_drop]
      conv_lhs => rw [List.dropLast_eq_take]
      rw [List.getElem?_take]
      rw [if_pos (by rw [List.length_set]; omega)]
      rw [List.getElem?_set]
      rcases j with _ | j'
      · rw [if_pos (by omega), if_pos (by omega)]
        simp
      · rw [if_neg (by omega)]
        rw [List.getElem?_cons_succ]
        conv_rhs => rw [List.dropLast_eq_take]
        rw [List.getElem?_take]
        rw [if_pos (by rw [List.length_drop]; omega)]
        rw [List.getElem?_drop]
        congr 1
        omega
    · rw [List.getElem?_eq_none (by rw [hlen1]; omega),
        List.getElem?_eq_none (by rw [hlen2]; omega)]

/-! ### The mixer pass -/

/-- The `while i < source_infos.len()` loop of the mixer callback, carrying
the output accumulation buffer `buf` and the global `sample_count`.
Returns the remaining source list, the final value of `i`, and the
accumulated buffer. -/
def mixLoop (infos : List SourceInfo) (sample_count : Nat) (i : Nat) (buf : List ℚ) :
    List SourceInfo × Nat × List ℚ :=
  if h : i < infos.length then
    match (infos[i]).result with
    | .Inactive =>
      -- assert!(start_pos_val == INACTIVE); the slot stays, i advances
      mixLoop infos sample_count (i + 1) buf
    | .Playing =>
      -- record start_pos on the first Playing tick, add samples into buf
      mixLoop
        (infos.set i
          { infos[i] with
              start_pos := if (infos[i]).start_pos = INACTIVE then sample_count
                           else (infos[i]).start_pos })
        sample_count (i + 1) (mixAdd buf (infos[i]).samples)
    | .Done => mixLoop (swapRemove infos i) sample_count i buf
  else (infos, i, buf)
termination_by infos.length - i
decreasing_by
  · omega
  · simp only [List.length_set]
    omega
  · rw [length_swapRemove infos i (List.length_pos.mp (by omega))]
    omega

/-- One invocation of the mixer callback of `AudioEngine::build_stream`
on an output buffer of length `n`: zero the buffer, run the per-source
pass, divide by `i` when `i > 1`, advance the global sample counter by
`n / CHANNELS` frames.  Returns (surviving sources, final `i`, the output
buffer, the new sample counter). -/
def mixTick (infos : List SourceInfo) (sample_count : Nat) (n : Nat) :
    List SourceInfo × Nat × List ℚ × Nat :=
  (
    (mixLoop infos sample_count 0 (List.replicate n (0 : ℚ))).1,
    (mixLoop infos sample_count 0 (List.replicate n (0 : ℚ))).2.1,
    (if 1 < (mixLoop infos sample_count 0 (List.replicate n (0 : ℚ))).2.1 then
      (mixLoop infos sample_count 0 (List.replicate n (0 : ℚ))).2.2.map
        (fun x => x / ((mixLoop infos sample_count 0 (List.replicate n (0 : ℚ))).2.1 : ℚ))
    else (mixLoop infos sample_count 0 (List.replicate n (0 : ℚ))).2.2),
    sample_count + n / CHANNELS
  )

/-- Number of sources whose `get_samples` returned `Inactive` or `Playing`
this tick (they stay in the list and are counted by the loop variable `i`). -/
def retainedCount (infos : List SourceInfo) : Nat :=
  infos.countP (fun s => decide (¬ s.result = AudioSourceState.Done))

/-- Number of sources whose `get_samples` returned `Playing` this tick
(the "contributing" sources in the words of the specification). -/
def playingCount (infos : List SourceInfo) : Nat :=
  infos.countP (fun s => decide (s.result = AudioSourceState.Playing))

/-- What the specification sentence behind claim C1 says the callback
computes: the elementwise sum over contributing sources divided by the
count of contributing sources (a count the spec asserts is ≥ 1). -/
def claimMixOutput (infos : List SourceInfo) (n : Nat) : List ℚ :=
  (mixFold infos (List.replicate n 0)).map (fun x => x / (playingCount infos : ℚ))

theorem mixLoop_spec (k : Nat) : ∀ (infos : List SourceInfo) (sc i : Nat) (buf : List ℚ),
    infos.length - i = k → i ≤ infos.length →
    (mixLoop infos sc i buf).2.1 = i + retainedCount (infos.drop i) ∧
    (mixLoop infos sc i buf).2.2 = mixFold (infos.drop i) buf := by
  induction k using Nat.strong_induction_on with
  | _ k IH =>
    intro infos sc i buf hk hile
    by_cases h : i < infos.length
    · have hdrop : infos.drop i = infos[i] :: infos.drop (i + 1) :=
        List.drop_eq_getElem_cons h
      rcases hres : (infos[i]).result with _ | _ | _
      · -- Inactive
        have hunf : mixLoop infos sc i buf = mixLoop infos sc (i + 1) buf := by
          rw [mixLoop, dif_pos h, hres]
        obtain ⟨IH1, IH2⟩ := IH (infos.length - (i + 1)) (by omega) infos sc (i + 1) buf
          rfl (by omega)
        have hc : retainedCount (infos.drop i) = retainedCount (infos.drop (i + 1)) + 1 := by
          rw [hdrop]
          unfold retainedCount
          rw [List.countP_cons]
          simp [hres]
        have hf : mixFold (infos.drop i) buf = mixFold (infos.drop (i + 1)) buf := by
          rw [hdrop]
          show mixFold (infos.drop (i + 1)) (mixStep buf (infos[i])) = _
          rw [show mixStep buf (infos[i]) = buf from by unfold mixStep; simp [hres]]
        rw [hunf, IH1, IH2, hc, hf]
        exact ⟨by omega, rfl⟩
      · -- Playing
        have hunf : mixLoop infos sc i buf =
            mixLoop
              (infos.set i
                { infos[i] with
                    start_pos := if (infos[i]).start_pos = INACTIVE then sc
                                 else (infos[i]).start_pos })
              sc (i + 1) (mixAdd buf (infos[i]).samples) := by
          rw [mixLoop, dif_pos h, hres]
        obtain ⟨IH1, IH2⟩ := IH (infos.length - (i + 1)) (by omega)
          (infos.set i
            { infos[i] with
                start_pos := if (infos[i]).start_pos = INACTIVE then sc
                             else (infos[i]).start_pos })
          sc (i + 1) (mixAdd buf (infos[i]).samples)
          (by rw [List.length_set]) (by rw [List.length_set]; omega)
        have hds : (infos.set i
            { infos[i] with
                start_pos := if (infos[i]).start_pos = INACTIVE then sc
                             else (infos[i]).start_pos }).drop (i + 1) =
            infos.drop (i + 1) :=
          List.drop_set_of_lt _ _ (by omega)
        rw [hds] at IH1 IH2
        have hc : retainedCount (infos.drop i) = retainedCount (infos.drop (i + 1)) + 1 := by
          rw [hdrop]
          unfold retainedCount
          rw [List.countP_cons]
          simp [hres]
        have hf : mixFold (infos.drop i) buf =
            mixFold (infos.drop (i + 1)) (mixAdd buf (infos[i]).samples) := by
          rw [hdrop]
          show mixFold (infos.drop (i + 1)) (mixStep buf (infos[i])) = _
          rw [show mixStep buf (infos[i]) = mixAdd buf (infos[i]).samples from by
            unfold mixStep
            simp [hres]]
        rw [hunf, IH1, IH2, hc, hf]
        exact ⟨by omega, rfl⟩
      · -- Done
        have hunf : mixLoop infos sc i buf = mixLoop (swapRemove infos i) sc i buf := by
          rw [mixLoop, dif_pos h, hres]
        have hlsw : (swapRemove infos i).length = infos.length - 1 :=
          length_swapRemove infos i (List.length_pos.mp (by omega))
        obtain ⟨IH1, IH2⟩ := IH (infos.length - 1 - i) (by omega) (swapRemove infos i) sc i buf
          (by omega) (by omega)
        rw [drop_swapRemove infos i h] at IH1 IH2
        have hc : retainedCount (infos.drop i) = retainedCount (infos.drop (i + 1)) := by
          rw [hdrop]
          unfold retainedCount
          rw [List.countP_cons]
          simp [hres]
        have hcr : retainedCount (rotLast (infos.drop (i + 1))) =
            retainedCount (infos.drop (i + 1)) := countP_rotLast _ _
        have hf : mixFold (infos.drop i) buf = mixFold (infos.drop (i + 1)) buf := by
          rw [hdrop]
          show mixFold (infos.drop (i + 1)) (mixStep buf (infos[i])) = _
          rw [show mixStep buf (infos[i]) = buf from by unfold mixStep; simp [hres]]
        rw [hunf, IH1, IH2, hcr, mixFold_rotLast, hc, hf]
        exact ⟨rfl, rfl⟩
    · have hunf : mixLoop infos sc i buf = (infos, i, buf) := by
        rw [mixLoop, dif_neg h]
      have hdrop : infos.drop i = [] := List.drop_eq_nil_of_le (by omega)
      rw [hunf, hdrop]
      exact ⟨by unfold retainedCount; simp, rfl⟩

/-! ## Timestamp accessor (`AudioSubr::get_timestamp`) -/

/-- `AudioSubr::get_timestamp`.  `stream_ts` models
`self.stream.get_timestamp()` (the hardware stream clock, `none` when
unavailable); `start_pos` is the value read from the shared atomic cell
(`INACTIVE` when the mixer has not recorded a start offset yet);
`sample_rate` is the stream sample rate.  `f64` arithmetic is modelled
over `ℚ`. -/
def get_timestamp (stream_ts : Option ℚ) (sample_rate : Nat) (start_pos : Nat) :
    Option ℚ :=
  match stream_ts with
  | none => none
  | some ts0 =>
    if start_pos = INACTIVE then none
    else
      if ts0 - (start_pos : ℚ) / (sample_rate : ℚ) < 0 then none
      else some (ts0 - (start_pos : ℚ) / (sample_rate : ℚ))

/-! ## File-backed source (`src/lib/src/audio/file.rs`) -/

/-- The `#[atomic_enum] enum State` shared between handle, decode thread
and mixer. -/
inductive FileState where
  | Inactive : FileState
  | Playing : FileState
  | Done : FileState
  deriving Repr, DecidableEq

/-- `AudioFileHandle::play`: store `Playing` only when the observed state
is `Inactive`. -/
def play (st : FileState) : FileState :=
  if st = FileState.Inactive then FileState.Playing else st

/-- `impl Drop for AudioFileHandle`: store `Done` unconditionally. -/
def handleDrop (_st : FileState) : FileState := FileState.Done

/-- `AudioFileSource::get_samples` on shared state `st`, channel state `cb`
and a caller buffer currently holding `buf`: `Inactive`/`Done` return at
once; `Playing` calls `recv`, transitions to `Done` when it returns 0,
otherwise zero-pads a short read to fill the buffer.  `none` models a call
that blocks inside `recv` (decode thread alive, channel empty).  Returns
(state, channel state, buffer contents, returned `AudioSourceState`). -/
def get_samples (st : FileState) (cb : CB ℚ) (buf : List ℚ) :
    Option (FileState × CB ℚ × List ℚ × AudioSourceState) :=
  match st with
  | .Inactive => some (.Inactive, cb, buf, .Inactive)
  | .Playing =>
    match recv cb buf.length with
    | none => none
    | some (cb', len, out) =>
      if len = 0 then some (.Done, cb', buf, .Done)
      else
        some (.Playing, cb',
          (if len < buf.length then
            (out ++ buf.drop out.length).take len ++
              List.replicate (buf.length - len) (0 : ℚ)
          else out ++ buf.drop out.length),
          .Playing)
  | .Done => some (.Done, cb, buf, .Done)

/-- The operations that mutate the shared three-phase state. -/
inductive FileOp where
  | doPlay : FileOp
  | doDrop : FileOp
  | doTick : CB ℚ → List ℚ → FileOp

/-- Effect of one operation on the shared state (a blocked `get_samples`
call leaves it unchanged). -/
def fileOpStep (st : FileState) : FileOp → FileState
  | .doPlay => play st
  | .doDrop => handleDrop st
  | .doTick cb buf =>
    match get_samples st cb buf with
    | none => st
    | some (st', _, _, _) => st'

/-- The phase order `Inactive → Playing → Done`. -/
def FileState.rank : FileState → Nat
  | .Inactive => 0
  | .Playing => 1
  | .Done => 2

def runFileOps (st : FileState) (ops : List FileOp) : FileState :=
  ops.foldl fileOpStep st

/-- `recv` on an empty channel whose sender is dead returns 0 and leaves
the state untouched. -/
theorem recv_dead_empty (cb : CB α) (n : Nat) (hdead : cb.send_alive = false)
    (hfill : cb.filled = 0) : recv cb n = some (cb, 0, []) := by
  have hiter : ∀ w, recvIter cb w = .drained := fun w => by
    unfold recvIter
    rw [if_neg (by simp [hdead]), if_pos (by omega)]
  unfold recv
  rw [recvLoop]
  by_cases h0 : n - 0 = 0
  · rw [if_pos h0]
  · rw [if_neg h0]
    split <;> rename_i h2 <;> rw [hiter (n - 0)] at h2
    all_goals first | rfl | exact RecvRes.noConfusion h2

/-! ## The claims -/

/-- C3: after the `Sender` is dropped, `recv` keeps returning the buffered
elements in order until the buffer is drained — each call returns the first
`min(filled, requested)` buffered elements and leaves the rest — it returns
fewer elements than requested only once the buffer is exhausted (the final
state is then empty), and on an empty buffer it returns 0 with the state
unchanged, hence 0 permanently. -/
theorem C3_recv_after_sender_drop (cb : CB ℚ) (n : Nat) (hwf : cb.Wf)
    (hdead : cb.send_alive = false) :
    (∃ cb', recv cb n = some (cb', min cb.filled n, cb.contents.take (min cb.filled n)) ∧
      cb'.Wf ∧ cb'.send_alive = false ∧ cb'.recv_alive = cb.recv_alive ∧
      cb'.filled = cb.filled - min cb.filled n ∧
      cb'.contents = cb.contents.drop (min cb.filled n) ∧
      (min cb.filled n < n → cb'.filled = 0)) ∧
    (cb.filled = 0 → recv cb n = some (cb, 0, [])) := by
  constructor
  · obtain ⟨cb', heq, hwf', hdead', hra', hcap', hfill', hcont'⟩ :=
      recvLoop_dead n cb n 0 [] hwf hdead (by omega)
    simp only [Nat.sub_zero, Nat.zero_add, List.nil_append] at heq hfill' hcont'
    refine ⟨cb', heq, hwf', hdead', hra', hfill', hcont', ?_⟩
    intro hlt
    rw [hfill']
    omega
  · intro h0
    exact recv_dead_empty cb n hdead h0

theorem C3_witness :
    (⟨[(10 : ℚ), 20, 30], 0, 1, 2, false, true⟩ : CB ℚ).Wf ∧
    (⟨[(10 : ℚ), 20, 30], 0, 1, 2, false, true⟩ : CB ℚ).send_alive = false ∧
    ((∃ cb', recv (⟨[(10 : ℚ), 20, 30], 0, 1, 2, false, true⟩ : CB ℚ) 5 =
        some (cb',
          min (⟨[(10 : ℚ), 20, 30], 0, 1, 2, false, true⟩ : CB ℚ).filled 5,
          (⟨[(10 : ℚ), 20, 30], 0, 1, 2, false, true⟩ : CB ℚ).contents.take
            (min (⟨[(10 : ℚ), 20, 30], 0, 1, 2, false, true⟩ : CB ℚ).filled 5)) ∧
      cb'.Wf ∧ cb'.send_alive = false ∧
      cb'.recv_alive = (⟨[(10 : ℚ), 20, 30], 0, 1, 2, false, true⟩ : CB ℚ).recv_alive ∧
      cb'.filled = (⟨[(10 : ℚ), 20, 30], 0, 1, 2, false, true⟩ : CB ℚ).filled -
        min (⟨[(10 : ℚ), 20, 30], 0, 1, 2, false, true⟩ : CB ℚ).filled 5 ∧
      cb'.contents = (⟨[(10 : ℚ), 20, 30], 0, 1, 2, false, true⟩ : CB ℚ).contents.drop
        (min (⟨[(10 : ℚ), 20, 30], 0, 1, 2, false, true⟩ : CB ℚ).filled 5) ∧
      (min (⟨[(10 : ℚ), 20, 30], 0, 1, 2, false, true⟩ : CB ℚ).filled 5 < 5 →
        cb'.filled = 0)) ∧
    ((⟨[(10 : ℚ), 20, 30], 0, 1, 2, false, true⟩ : CB ℚ).filled = 0 →
      recv (⟨[(10 : ℚ), 20, 30], 0, 1, 2, false, true⟩ : CB ℚ) 5 =
        some (⟨[(10 : ℚ), 20, 30], 0, 1, 2, false, true⟩, 0, []))) :=
  ⟨by decide, rfl, C3_recv_after_sender_drop _ 5 (by decide) rfl⟩

/-- C4 counterexample: the claim says every `send` call returns `false` once
the receiver is dead; but `send(&[])` on a channel whose receiver has been
dropped returns `true` (the `todo == 0` break precedes the liveness check). -/
theorem C4_counterexample :
    (⟨[(0 : ℚ)], 0, 0, 0, true, false⟩ : CB ℚ).recv_alive = false ∧
    send (⟨[(0 : ℚ)], 0, 0, 0, true, false⟩ : CB ℚ) [] =
      some (⟨[(0 : ℚ)], 0, 0, 0, true, false⟩, true, 0) :=
  ⟨rfl, send_nil _⟩

/-- C4 (amended): once the receiver is dead, every send call with a
NON-EMPTY slice returns `false` and delivers no data (the state is
unchanged); a locked pass of an in-progress send observes the receiver's
death at once (at any progress point `i`) and takes the `return false`
path. -/
theorem C4_send_after_receiver_drop (cb : CB ℚ) (src : List ℚ) (i : Nat)
    (hdead : cb.recv_alive = false) :
    (0 < src.length → send cb src = some (cb, false, 0)) ∧
    (i < src.length → sendIter cb src i = SendRes.dead) := by
  constructor
  · intro h
    exact send_dead cb src hdead h
  · intro h
    unfold sendIter
    rw [if_neg (by simp [hdead]), if_pos (by simp [hdead])]

theorem C4_witness :
    (⟨[(0 : ℚ), 0], 0, 0, 0, true, false⟩ : CB ℚ).recv_alive = false ∧
    ((0 < [(7 : ℚ)].length →
      send (⟨[(0 : ℚ), 0], 0, 0, 0, true, false⟩ : CB ℚ) [(7 : ℚ)] =
        some (⟨[(0 : ℚ), 0], 0, 0, 0, true, false⟩, false, 0)) ∧
     (0 < [(7 : ℚ)].length →
      sendIter (⟨[(0 : ℚ), 0], 0, 0, 0, true, false⟩ : CB ℚ) [(7 : ℚ)] 0 =
        SendRes.dead)) :=
  ⟨rfl, C4_send_after_receiver_drop _ [(7 : ℚ)] 0 rfl⟩

/-- C5: `Receiver::wait_full` sleeps while `send_alive && filled < cap` and
returns exactly when that predicate is false: when the buffer is saturated
(`filled = capacity`) or the sender is already dead (then it returns
immediately, the predicate being false on entry). -/
theorem C5_wait_full (cb : CB ℚ) (hwf : cb.Wf) :
    waitFullGate cb = false ↔ (cb.filled = cb.cap ∨ cb.send_alive = false) := by
  have hfle : cb.filled ≤ cb.cap := hwf.2.2.2.1
  rcases hsa : cb.send_alive
  · simp [waitFullGate, hsa]
  · simp [waitFullGate, hsa]
    omega

theorem C5_witness :
    (⟨[(0 : ℚ), 0], 0, 0, 2, true, true⟩ : CB ℚ).Wf ∧
    (waitFullGate (⟨[(0 : ℚ), 0], 0, 0, 2, true, true⟩ : CB ℚ) = false ↔
      ((⟨[(0 : ℚ), 0], 0, 0, 2, true, true⟩ : CB ℚ).filled =
          (⟨[(0 : ℚ), 0], 0, 0, 2, true, true⟩ : CB ℚ).cap ∨
        (⟨[(0 : ℚ), 0], 0, 0, 2, true, true⟩ : CB ℚ).send_alive = false)) :=
  ⟨by decide, C5_wait_full _ (by decide)⟩

/-- C6: `get_timestamp` returns `none` when the hardware clock is
unavailable; `none` while the start-offset cell still holds the
not-started sentinel; otherwise it computes
`hardware_stream_time − start_offset / sample_rate` and returns `none`
rather than a negative value — so every `some t` it returns has `t ≥ 0`
(and `t` is exactly that difference). -/
theorem C6_get_timestamp :
    (∀ (rate p : Nat), get_timestamp none rate p = none) ∧
    (∀ (ts : Option ℚ) (rate : Nat), get_timestamp ts rate INACTIVE = none) ∧
    (∀ (ts0 : ℚ) (rate p : Nat) (t : ℚ),
      get_timestamp (some ts0) rate p = some t →
      0 ≤ t ∧ p ≠ INACTIVE ∧ t = ts0 - (p : ℚ) / (rate : ℚ)) := by
  refine ⟨fun _ _ => rfl, ?_, ?_⟩
  · intro ts rate
    rcases ts with _ | ts0
    · rfl
    · show (if INACTIVE = INACTIVE then none
        else if ts0 - (INACTIVE : ℚ) / (rate : ℚ) < 0 then none
        else some (ts0 - (INACTIVE : ℚ) / (rate : ℚ))) = none
      rw [if_pos rfl]
  · intro ts0 rate p t h
    replace h : (if p = INACTIVE then none
        else if ts0 - (p : ℚ) / (rate : ℚ) < 0 then none
        else some (ts0 - (p : ℚ) / (rate : ℚ))) = some t := h
    by_cases hp : p = INACTIVE
    · rw [if_pos hp] at h
      exact Option.noConfusion h
    · rw [if_neg hp] at h
      by_cases hneg : ts0 - (p : ℚ) / (rate : ℚ) < 0
      · rw [if_pos hneg] at h
        exact Option.noConfusion h
      · rw [if_neg hneg] at h
        injection h with ht
        exact ⟨by rw [← ht]; linarith, hp, ht.symm⟩

/-- C9: `send` with an empty slice returns `true` at once without observing
receiver liveness — in particular it returns `true` on a channel whose
receiver has been dropped — while a non-empty send in that situation
returns `false`. -/
theorem C9_empty_send :
    (∀ (cb : CB ℚ), send cb ([] : List ℚ) = some (cb, true, 0)) ∧
    (∀ (cb : CB ℚ) (src : List ℚ), cb.recv_alive = false → 0 < src.length →
      send cb src = some (cb, false, 0)) :=
  ⟨fun cb => send_nil cb, fun cb src h1 h2 => send_dead cb src h1 h2⟩

/-- C2: for every channel of capacity > 0 and every interleaving of the two
endpoint threads (at the granularity of the mutex-guarded passes), the
elements handed to `recv` callers, followed by the elements still buffered,
followed by the elements not yet copied, are exactly the concatenation of
the slices passed to `send`, in order — no loss, duplication or reordering,
wraparound and multi-chunk transfers included; in particular once the
producer has completed all its sends and the buffer is drained, the
received sequence equals the concatenation of all sent slices. -/
theorem C2_fifo_roundtrip (α : Type) [Inhabited α] (len : Nat) (hlen : 0 < len)
    (slices : List (List α)) (reqs : List Nat) (as : List Act) :
    (run (initSys α len slices reqs) as).out ++
      (run (initSys α len slices reqs) as).cb.contents ++
      (run (initSys α len slices reqs) as).prod.cur.drop
        (run (initSys α len slices reqs) as).prod.i ++
      (run (initSys α len slices reqs) as).prod.pending.flatten = slices.flatten ∧
    ((run (initSys α len slices reqs) as).prod.i =
        (run (initSys α len slices reqs) as).prod.cur.length ∧
      (run (initSys α len slices reqs) as).prod.pending = [] ∧
      (run (initSys α len slices reqs) as).cb.filled = 0 →
      (run (initSys α len slices reqs) as).out = slices.flatten) := by
  obtain ⟨hwf, hfifo, hile, htot⟩ :=
    SysInv_run slices.flatten as (initSys α len slices reqs)
      (SysInv_init α len slices reqs hlen)
  set sys := run (initSys α len slices reqs) as with hsys
  constructor
  · rw [hfifo]
    exact htot
  · rintro ⟨h1, h2, h3⟩
    have hc : sys.cb.contents = [] := by
      unfold CB.contents
      rw [h3]
      simp
    have hd : sys.prod.cur.drop sys.prod.i = [] := by
      rw [h1]
      simp
    rw [hd, h2] at htot
    simp only [List.flatten_nil, List.append_nil] at htot
    rw [hc, List.append_nil] at hfifo
    rw [hfifo]
    exact htot

theorem C2_witness :
    0 < 1 ∧
    ((run (initSys ℚ 1 [] []) []).out ++ (run (initSys ℚ 1 [] []) []).cb.contents ++
      (run (initSys ℚ 1 [] []) []).prod.cur.drop (run (initSys ℚ 1 [] []) []).prod.i ++
      (run (initSys ℚ 1 [] []) []).prod.pending.flatten = List.flatten ([] : List (List ℚ)) ∧
    ((run (initSys ℚ 1 [] []) []).prod.i = (run (initSys ℚ 1 [] []) []).prod.cur.length ∧
      (run (initSys ℚ 1 [] []) []).prod.pending = [] ∧
      (run (initSys ℚ 1 [] []) []).cb.filled = 0 →
      (run (initSys ℚ 1 [] []) []).out = List.flatten ([] : List (List ℚ)))) :=
  ⟨by decide, C2_fifo_roundtrip ℚ 1 (by decide) [] [] []⟩

/-- C10: under any interleaving (including the receiver being dropped at an
arbitrary point, so that the send in progress fails mid-transfer), the
elements a single `send src` call has copied into the channel are exactly
`src.take k` for some `k` — a (possibly empty) prefix of the argument
slice, delivered in order — and everything the receiver got is drawn from
that prefix. -/
theorem C10_send_prefix_delivery (α : Type) [Inhabited α] (len : Nat) (hlen : 0 < len)
    (src : List α) (reqs : List Nat) (as : List Act) :
    (run (initSys α len [src] reqs) as).pushed =
      src.take (run (initSys α len [src] reqs) as).pushed.length ∧
    (run (initSys α len [src] reqs) as).out ++
      (run (initSys α len [src] reqs) as).cb.contents =
      (run (initSys α len [src] reqs) as).pushed := by
  obtain ⟨hwf, hfifo, hile, htot⟩ :=
    SysInv_run [src].flatten as (initSys α len [src] reqs)
      (SysInv_init α len [src] reqs hlen)
  set sys := run (initSys α len [src] reqs) as with hsys
  have hfl : ([src] : List (List α)).flatten = src := by simp
  rw [List.append_assoc, hfl] at htot
  constructor
  · have h1 := List.take_left sys.pushed
      (sys.prod.cur.drop sys.prod.i ++ sys.prod.pending.flatten)
    rw [htot] at h1
    exact h1.symm
  · exact hfifo

theorem C10_witness :
    0 < 1 ∧
    ((run (initSys ℚ 1 [[(3 : ℚ)]] []) []).pushed =
      [(3 : ℚ)].take (run (initSys ℚ 1 [[(3 : ℚ)]] []) []).pushed.length ∧
    (run (initSys ℚ 1 [[(3 : ℚ)]] []) []).out ++
      (run (initSys ℚ 1 [[(3 : ℚ)]] []) []).cb.contents =
      (run (initSys ℚ 1 [[(3 : ℚ)]] []) []).pushed) :=
  ⟨by decide, C10_send_prefix_delivery ℚ 1 (by decide) [(3 : ℚ)] [] []⟩

/-- C7: the shared three-phase state only advances along
`Inactive → Playing → Done` and never regresses: every single operation is
monotone in the phase order, hence so is every interleaving (sequence) of
operations; `play` sends `Inactive` to `Playing` and leaves `Playing` and
`Done` unchanged; dropping the handle forces `Done`; and a completed
`get_samples` call started in `Playing` ends in `Done` exactly when its
`recv` returned 0 (channel exhausted), else stays `Playing`. -/
theorem C7_state_monotonic :
    (∀ (st : FileState) (op : FileOp), st.rank ≤ (fileOpStep st op).rank) ∧
    (∀ (ops : List FileOp) (st : FileState), st.rank ≤ (runFileOps st ops).rank) ∧
    (play FileState.Inactive = FileState.Playing ∧
      play FileState.Playing = FileState.Playing ∧
      play FileState.Done = FileState.Done) ∧
    (∀ st, handleDrop st = FileState.Done) ∧
    (∀ (cb : CB ℚ) (buf : List ℚ) (st' : FileState) (cb' : CB ℚ) (out : List ℚ)
      (r : AudioSourceState),
      get_samples FileState.Playing cb buf = some (st', cb', out, r) →
      (∃ cb2 k o, recv cb buf.length = some (cb2, k, o) ∧
        (st' = FileState.Done ↔ k = 0)) ∧
      (st' = FileState.Playing ∨ st' = FileState.Done)) := by
  have hstep : ∀ (st : FileState) (op : FileOp), st.rank ≤ (fileOpStep st op).rank := by
    intro st op
    cases op with
    | doPlay => cases st <;> simp [fileOpStep, play, FileState.rank]
    | doDrop => cases st <;> simp [fileOpStep, handleDrop, FileState.rank]
    | doTick cb buf =>
      cases st with
      | Inactive => exact Nat.le_refl _
      | Done => exact Nat.le_refl _
      | Playing =>
        show FileState.rank FileState.Playing ≤
          FileState.rank (match get_samples FileState.Playing cb buf with
            | none => FileState.Playing
            | some (st', _, _, _) => st')
        simp only [get_samples]
        rcases hr : recv cb buf.length with _ | ⟨cb2, k, o⟩
        · exact Nat.le_refl _
        · by_cases h0 : k = 0 <;> simp [h0, FileState.rank]
  refine ⟨hstep, ?_, ⟨rfl, rfl, rfl⟩, fun st => rfl, ?_⟩
  · intro ops
    induction ops with
    | nil => intro st; exact Nat.le_refl _
    | cons op ops IH =>
      intro st
      exact Nat.le_trans (hstep st op) (IH (fileOpStep st op))
  · intro cb buf st' cb' out r h
    replace h : (match recv cb buf.length with
        | none => (none : Option (FileState × CB ℚ × List ℚ × AudioSourceState))
        | some (cb2, k, o) =>
          if k = 0 then some (FileState.Done, cb2, buf, AudioSourceState.Done)
          else
            some (FileState.Playing, cb2,
              (if k < buf.length then
                (o ++ buf.drop o.length).take k ++
                  List.replicate (buf.length - k) (0 : ℚ)
              else o ++ buf.drop o.length),
              AudioSourceState.Playing)) = some (st', cb', out, r) := h
    rcases hr : recv cb buf.length with _ | ⟨cb2, k, o⟩
    · rw [hr] at h
      exact Option.noConfusion h
    · rw [hr] at h
      replace h : (if k = 0 then some (FileState.Done, cb2, buf, AudioSourceState.Done)
          else
            some (FileState.Playing, cb2,
              (if k < buf.length then
                (o ++ buf.drop o.length).take k ++
                  List.replicate (buf.length - k) (0 : ℚ)
              else o ++ buf.drop o.length),
              AudioSourceState.Playing)) = some (st', cb', out, r) := h
      by_cases h0 : k = 0
      · rw [if_pos h0] at h
        obtain ⟨h1, h2, h3, h4⟩ :
            FileState.Done = st' ∧ cb2 = cb' ∧ buf = out ∧ AudioSourceState.Done = r := by
          simpa using h
        refine ⟨⟨cb2, k, o, rfl, ?_⟩, Or.inr h1.symm⟩
        rw [← h1]
        simp [h0]
      · rw [if_neg h0] at h
        have h1 : FileState.Playing = st' := by
          have := congrArg (fun x => (Option.map (fun y => y.1) x)) h
          simpa using this
        refine ⟨⟨cb2, k, o, rfl, ?_⟩, Or.inl h1.symm⟩
        rw [← h1]
        constructor
        · intro hx
          exact absurd hx (by intro hy; exact FileState.noConfusion hy)
        · intro hx
          exact absurd hx h0

/-- C8: the file-backed `get_samples` returns `Inactive` while the shared
state is `Inactive` (until `play()` flips it) and `Done` once it is `Done`,
both without touching channel or buffer; in `Playing` it pulls from the
channel: at end-of-stream a short read is zero-padded so the returned
buffer is filled to exactly the caller's length, and the call made after
the channel is fully drained (its `recv` returns 0) stores `Done` and
returns `Done` — after which every call returns `Done`. -/
theorem C8_file_get_samples :
    (∀ (cb : CB ℚ) (buf : List ℚ),
      get_samples FileState.Inactive cb buf =
        some (FileState.Inactive, cb, buf, AudioSourceState.Inactive)) ∧
    (∀ (cb : CB ℚ) (buf : List ℚ),
      get_samples FileState.Done cb buf =
        some (FileState.Done, cb, buf, AudioSourceState.Done)) ∧
    (∀ (cb : CB ℚ) (buf : List ℚ), cb.send_alive = false → cb.filled = 0 →
      get_samples FileState.Playing cb buf =
        some (FileState.Done, cb, buf, AudioSourceState.Done)) ∧
    (∀ (cb : CB ℚ) (buf : List ℚ), cb.Wf → cb.send_alive = false →
      0 < cb.filled → 0 < buf.length →
      ∃ cb', get_samples FileState.Playing cb buf =
          some (FileState.Playing, cb',
            cb.contents.take (min cb.filled buf.length) ++
              List.replicate (buf.length - min cb.filled buf.length) 0,
            AudioSourceState.Playing) ∧
        (cb.contents.take (min cb.filled buf.length) ++
          List.replicate (buf.length - min cb.filled buf.length) (0 : ℚ)).length =
          buf.length ∧
        cb'.contents = cb.contents.drop (min cb.filled buf.length)) ∧
    (∀ (cb : CB ℚ) (buf : List ℚ), cb.Wf → buf.length ≤ cb.filled → 0 < buf.length →
      ∃ cb', get_samples FileState.Playing cb buf =
          some (FileState.Playing, cb', cb.contents.take buf.length,
            AudioSourceState.Playing) ∧
        cb'.contents = cb.contents.drop buf.length) := by
  refine ⟨fun cb buf => rfl, fun cb buf => rfl, ?_, ?_, ?_⟩
  · intro cb buf hdead hfill
    have hr := recv_dead_empty cb buf.length hdead hfill
    simp only [get_samples]
    rw [hr]
    rfl
  · intro cb buf hwf hdead hfill hbuf
    have hfle : cb.filled ≤ cb.cap := hwf.2.2.2.1
    obtain ⟨cb', heq, hwf', hdead', hra', hcap', hfill', hcont'⟩ :=
      recvLoop_dead buf.length cb buf.length 0 [] hwf hdead (by omega)
    simp only [Nat.sub_zero, Nat.zero_add, List.nil_append] at heq hfill' hcont'
    have heq2 : recv cb buf.length =
        some (cb', min cb.filled buf.length,
          cb.contents.take (min cb.filled buf.length)) := heq
    set k := min cb.filled buf.length with hk
    have hk0 : ¬ k = 0 := by omega
    have houtlen : (cb.contents.take k).length = k := by
      rw [List.length_take, CB.length_contents cb hfle]
      omega
    refine ⟨cb', ?_, ?_, hcont'⟩
    · simp only [get_samples]
      rw [heq2]
      show (if k = 0 then some (FileState.Done, cb', buf, AudioSourceState.Done)
          else
            some (FileState.Playing, cb',
              (if k < buf.length then
                (cb.contents.take k ++ buf.drop (cb.contents.take k).length).take k ++
                  List.replicate (buf.length - k) (0 : ℚ)
              else cb.contents.take k ++ buf.drop (cb.contents.take k).length),
              AudioSourceState.Playing)) =
        some (FileState.Playing, cb',
          cb.contents.take k ++ List.replicate (buf.length - k) 0,
          AudioSourceState.Playing)
      rw [if_neg hk0]
      by_cases hck : k < buf.length
      · rw [if_pos hck]
        have hA : (cb.contents.take k ++ buf.drop (cb.contents.take k).length).take k =
            cb.contents.take k := by
          rw [List.take_append_of_le_length (by rw [houtlen]),
            List.take_take]
          simp
        rw [hA]
      · rw [if_neg hck]
        have hdropnil : buf.drop (cb.contents.take k).length = [] := by
          rw [houtlen]
          exact List.drop_eq_nil_of_le (by omega)
        rw [hdropnil, List.append_nil]
        rw [show buf.length - k = 0 from by omega]
        simp
    · rw [List.length_append, houtlen, List.length_replicate]
      omega
  · intro cb buf hwf hlen hbuf
    have hfle : cb.filled ≤ cb.cap := hwf.2.2.2.1
    obtain ⟨cb', heq, hwf', hsa', hra', hcap', hfill', hcont'⟩ :=
      recv_all cb buf.length hwf hlen
    have houtlen : (cb.contents.take buf.length).length = buf.length := by
      rw [List.length_take, CB.length_contents cb hfle]
      omega
    refine ⟨cb', ?_, hcont'⟩
    simp only [get_samples]
    rw [heq]
    show (if buf.length = 0 then some (FileState.Done, cb', buf, AudioSourceState.Done)
        else
          some (FileState.Playing, cb',
            (if buf.length < buf.length then
              (cb.contents.take buf.length ++
                buf.drop (cb.contents.take buf.length).length).take buf.length ++
                List.replicate (buf.length - buf.length) (0 : ℚ)
            else cb.contents.take buf.length ++
              buf.drop (cb.contents.take buf.length).length),
            AudioSourceState.Playing)) =
      some (FileState.Playing, cb', cb.contents.take buf.length,
        AudioSourceState.Playing)
    rw [if_neg (by omega), if_neg (by omega)]
    have hdropnil : buf.drop (cb.contents.take buf.length).length = [] := by
      rw [houtlen]
      exact List.drop_eq_nil_of_le (by omega)
    rw [hdropnil, List.append_nil]

/-- C1 (amended): after the per-source pass, the loop counter `i` equals the
number of sources that remained in the list this tick — those whose
`get_samples` returned `Inactive` or `Playing`, NOT only the contributing
(`Playing`) ones — the accumulated output (the elementwise sum over
`Playing` sources) is divided elementwise by that count, and the division
is applied only when the count exceeds 1; `Done` sources do not affect the
divisor.  The global sample counter advances by `n / CHANNELS` frames. -/
theorem C1_mixer_divisor (infos : List SourceInfo) (sc n : Nat) :
    (mixTick infos sc n).2.1 = retainedCount infos ∧
    (mixTick infos sc n).2.2.1 =
      (if 1 < retainedCount infos then
        (mixFold infos (List.replicate n 0)).map
          (fun x => x / (retainedCount infos : ℚ))
      else mixFold infos (List.replicate n 0)) ∧
    (mixTick infos sc n).2.2.2 = sc + n / CHANNELS := by
  obtain ⟨h1, h2⟩ := mixLoop_spec infos.length infos sc 0 (List.replicate n (0 : ℚ))
    (by omega) (by omega)
  rw [List.drop_zero] at h1 h2
  rw [Nat.zero_add] at h1
  refine ⟨?_, ?_, rfl⟩
  · show (mixLoop infos sc 0 (List.replicate n 0)).2.1 = retainedCount infos
    exact h1
  · show (if 1 < (mixLoop infos sc 0 (List.replicate n 0)).2.1 then
        (mixLoop infos sc 0 (List.replicate n 0)).2.2.map
          (fun x => x / ((mixLoop infos sc 0 (List.replicate n 0)).2.1 : ℚ))
      else (mixLoop infos sc 0 (List.replicate n 0)).2.2) =
      (if 1 < retainedCount infos then
        (mixFold infos (List.replicate n 0)).map
          (fun x => x / (retainedCount infos : ℚ))
      else mixFold infos (List.replicate n 0))
    rw [h1, h2]

/-- C1 counterexample: one `Inactive` source alongside one `Playing` source
emitting constant 1.  The callback divides by 2 (the `Inactive` source is
counted by the divisor `i`), whereas the claim's divisor — the count of
sources that contributed output this tick — is 1, so the claimed output is
the undivided sum. -/
theorem C1_counterexample :
    (mixTick [⟨INACTIVE, AudioSourceState.Inactive, [0, 0]⟩,
        ⟨INACTIVE, AudioSourceState.Playing, [1, 1]⟩] 0 2).2.2.1 =
      [1 / 2, 1 / 2] ∧
    claimMixOutput [⟨INACTIVE, AudioSourceState.Inactive, [0, 0]⟩,
        ⟨INACTIVE, AudioSourceState.Playing, [1, 1]⟩] 2 = [1, 1] ∧
    ¬ (mixTick [⟨INACTIVE, AudioSourceState.Inactive, [0, 0]⟩,
        ⟨INACTIVE, AudioSourceState.Playing, [1, 1]⟩] 0 2).2.2.1 =
      claimMixOutput [⟨INACTIVE, AudioSourceState.Inactive, [0, 0]⟩,
        ⟨INACTIVE, AudioSourceState.Playing, [1, 1]⟩] 2 := by
  have hspec := mixLoop_spec 2
    [⟨INACTIVE, AudioSourceState.Inactive, [0, 0]⟩,
     ⟨INACTIVE, AudioSourceState.Playing, [1, 1]⟩] 0 0
    (List.replicate 2 (0 : ℚ)) (by decide) (by decide)
  obtain ⟨hA, hB⟩ := hspec
  have h1 : (mixTick [⟨INACTIVE, AudioSourceState.Inactive, [0, 0]⟩,
      ⟨INACTIVE, AudioSourceState.Playing, [1, 1]⟩] 0 2).2.2.1 = [1 / 2, 1 / 2] := by
    show (if 1 < (mixLoop [⟨INACTIVE, AudioSourceState.Inactive, [0, 0]⟩,
          ⟨INACTIVE, AudioSourceState.Playing, [1, 1]⟩] 0 0 (List.replicate 2 (0 : ℚ))).2.1 then
        (mixLoop [⟨INACTIVE, AudioSourceState.Inactive, [0, 0]⟩,
          ⟨INACTIVE, AudioSourceState.Playing, [1, 1]⟩] 0 0 (List.replicate 2 (0 : ℚ))).2.2.map
          (fun x => x / ((mixLoop [⟨INACTIVE, AudioSourceState.Inactive, [0, 0]⟩,
            ⟨INACTIVE, AudioSourceState.Playing, [1, 1]⟩] 0 0
              (List.replicate 2 (0 : ℚ))).2.1 : ℚ))
      else (mixLoop [⟨INACTIVE, AudioSourceState.Inactive, [0, 0]⟩,
        ⟨INACTIVE, AudioSourceState.Playing, [1, 1]⟩] 0 0 (List.replicate 2 (0 : ℚ))).2.2) =
      [1 / 2, 1 / 2]
    rw [hA, hB]
    have hc : retainedCount [⟨INACTIVE, AudioSourceState.Inactive, [0, 0]⟩,
        ⟨INACTIVE, AudioSourceState.Playing, [1, 1]⟩] = 2 := by decide
    have hf : mixFold [⟨INACTIVE, AudioSourceState.Inactive, [0, 0]⟩,
        ⟨INACTIVE, AudioSourceState.Playing, [1, 1]⟩] (List.replicate 2 (0 : ℚ)) = [1, 1] := by
      norm_num [mixFold, mixStep, mixAdd, List.replicate]
    simp only [List.drop_zero, Nat.zero_add, hc, hf]
    norm_num
  have h2 : claimMixOutput [⟨INACTIVE, AudioSourceState.Inactive, [0, 0]⟩,
      ⟨INACTIVE, AudioSourceState.Playing, [1, 1]⟩] 2 = [1, 1] := by
    norm_num [claimMixOutput, playingCount, mixFold, mixStep, mixAdd,
      List.countP_cons, List.countP_nil, List.replicate]
    decide
  refine ⟨h1, h2, ?_⟩
  rw [h1, h2]
  intro h
  norm_num at h

end RSaber
